import Mathlib

/-!
Shallow embedding of `src/urllib3/multipart/encoder.py` (streaming
multipart/form-data encoder) and proofs about it.

Bytes are modelled as natural numbers; byte strings as `List Nat`.
The carriage-return/line-feed pair is `[13, 10]`, the dash is `45`.

External collaborators (the request-field header renderer and the boundary
generator) are out of scope per the spec; a field therefore enters the
encoder as a pair of already-rendered header bytes and body bytes, and the
boundary value is an arbitrary byte string.
-/

namespace MultipartEnc

def CRLF : List Nat := [13, 10]

/-- The four bytes the closing-boundary write puts at the end: two dashes
followed by the carriage-return/line-feed pair. -/
def closingDashes : List Nat := [45, 45, 13, 10]

/-! ### `_CustomBytesIO` (here `CBuf`)

The source subclasses `io.BytesIO`: a growable byte store `data` and a
cursor `pos`.  `append` writes at the logical end while preserving the
cursor (the `reset` context manager), `read` consumes from the cursor,
`smart_truncate` discards the consumed prefix once it dominates. -/

structure CBuf where
  data : List Nat
  pos : Nat
deriving Repr, DecidableEq

/-- The bytes between the cursor and the end: what a `read` can still see. -/
def CBuf.unread (b : CBuf) : List Nat := b.data.drop b.pos

/-- `_get_end`: total number of stored bytes. -/
def CBuf.getEnd (b : CBuf) : Nat := b.data.length

/-- The `len` property: bytes remaining from the cursor to the end. -/
def CBuf.len (b : CBuf) : Nat := b.data.length - b.pos

/-- `append`: write at the end under `reset`, so the cursor is unchanged;
returns the number of bytes written (always the full chunk). -/
def CBuf.append (b : CBuf) (xs : List Nat) : CBuf × Nat :=
  ({ b with data := b.data ++ xs }, xs.length)

/-- `io.BytesIO.read`: a negative size reads everything from the cursor,
otherwise up to `size` bytes; the cursor advances by what was returned. -/
def CBuf.read (b : CBuf) (size : Int) : List Nat × CBuf :=
  if size < 0 then
    (b.data.drop b.pos, { b with pos := b.data.length })
  else
    ((b.data.drop b.pos).take size.toNat,
     { b with pos := min (b.pos + size.toNat) b.data.length })

/-- `smart_truncate`: when the consumed prefix is at least as long as the
unread suffix, keep only the unread bytes and reset the cursor. -/
def CBuf.smartTruncate (b : CBuf) : CBuf :=
  let toBeRead := b.len
  let alreadyRead := b.getEnd - toBeRead
  if toBeRead ≤ alreadyRead then { data := b.data.drop b.pos, pos := 0 } else b

/-! ### `Part`

Header bytes plus a body source.  The body sources the encoder actually
builds (`_CustomBytesIO` over bytes/str, `FileWrapper` over a file) both
read `min (requested, remaining)` bytes and report `len` = remaining, so
the body is embedded as its list of remaining bytes.  `len` is the fixed
total computed at construction and never updated afterwards. -/

structure Part where
  headers : List Nat
  body : List Nat
  headers_unread : Bool
  len : Nat
deriving Repr, DecidableEq

/-- `Part.from_field` with the external rendering abstracted: the field is
already the pair (rendered header block, coerced body bytes).
`self.len = len(self.headers) + total_len(self.body)`. -/
def Part.ofField (headers body : List Nat) : Part :=
  { headers := headers, body := body, headers_unread := true,
    len := headers.length + body.length }

/-- `bytes_left_to_write`. -/
def Part.bytesLeftToWrite (p : Part) : Bool :=
  let toRead := if p.headers_unread then p.headers.length else 0
  decide (0 < toRead + p.body.length)

/-- One `body.read(amount_to_read)` of the coerced body sources: a negative
amount reads everything, otherwise up to `amount` bytes. -/
def bodyRead (body : List Nat) (amount : Int) : List Nat :=
  if amount < 0 then body else body.take amount.toNat

/-- The `while total_len(self.body) > 0 and (size == -1 or written < size)`
loop of `Part.write_to`, with explicit fuel (the loop makes at most
`body.length` byte-consuming iterations, so the fuel passed by `writeTo`
never runs out; `Part.writeLoop_spec` certifies the result). -/
def Part.writeLoop : Nat → List Nat → CBuf → Int → Nat → List Nat × CBuf × Nat
  | 0, body, buf, _, written => (body, buf, written)
  | Nat.succ fuel, body, buf, size, written =>
    if 0 < body.length ∧ (size = -1 ∨ (written : Int) < size) then
      let amountToRead : Int := if size = -1 then size else size - (written : Int)
      let chunk := bodyRead body amountToRead
      Part.writeLoop fuel (body.drop chunk.length) ((buf.append chunk).1) size
        (written + chunk.length)
    else (body, buf, written)

/-- `Part.write_to`: flush the whole header block first if still unread,
then pull body bytes until the body is exhausted or `size` is met.
Returns the mutated part, the grown buffer and the byte count written. -/
def Part.writeTo (p : Part) (buf : CBuf) (size : Int) : Part × CBuf × Nat :=
  if p.headers_unread then
    let (buf1, w0) := buf.append p.headers
    let r := Part.writeLoop (p.body.length + 1) p.body buf1 size w0
    ({ p with headers_unread := false, body := r.1 }, r.2.1, r.2.2)
  else
    let r := Part.writeLoop (p.body.length + 1) p.body buf size 0
    ({ p with body := r.1 }, r.2.1, r.2.2)

/-- Number of body bytes `write_to` consumes: everything for an unbounded
request, otherwise what fits into the budget left after the header bytes. -/
def Part.bodyTakeCount (p : Part) (size : Int) : Nat :=
  let hs := if p.headers_unread then p.headers else []
  if size = -1 then p.body.length
  else if (hs.length : Int) < size then
    min p.body.length (size - (hs.length : Int)).toNat
  else 0

end MultipartEnc

namespace MultipartEnc

/-! ### `MultipartEncoder`

State of the encoder.  `_boundary` is `"--" ++ boundary_value`; the source
annotates `_encoded_boundary : bytes` and all later uses treat it as the
byte string `_boundary ++ CRLF`, which is how it is embedded here (the
actual right-hand side of the assignment is a 1-tuple, a slip modelled
separately by `encodedBoundaryPy` below).

`parts` is the list built by `_prepare_parts`; after construction the
source only ever reads the immutable `len` field of its elements and the
list's length, so the construction-time snapshot is kept.  `iterParts` is
the remainder of the `iter(parts)` iterator and `currentPart` the part the
load loop is working on.

`closingOK` is ghost instrumentation (not in the source): it records
whether, each time `_write_closing_boundary` ran, the buffer held at least
two bytes ending in CRLF — the precondition for the backward
seek-and-overwrite to be meaningful (CPython raises `ValueError` on the
seek when fewer than two bytes are stored; the model clamps instead and
lets the flag record the violation). -/

structure Encoder where
  boundary : List Nat
  encodedBoundary : List Nat
  parts : List Part
  iterParts : List Part
  currentPart : Option Part
  finished : Bool
  buffer : CBuf
  lenCache : Option Nat
  iterReadSize : Int
  closingOK : Bool
deriving Repr, DecidableEq

/-- `_write`: append to the end of the buffer. -/
def Encoder.write (e : Encoder) (xs : List Nat) : Nat × Encoder :=
  let r := e.buffer.append xs
  (r.2, { e with buffer := r.1 })

/-- `_write_boundary`: append the encoded boundary line. -/
def Encoder.writeBoundary (e : Encoder) : Nat × Encoder :=
  e.write e.encodedBoundary

/-- `_write_closing_boundary`: seek two bytes back from the end, overwrite
with the four bytes of `closingDashes`, restore the cursor, return 2.
When fewer than two bytes are stored CPython raises on the seek; the model
truncates to the empty prefix (callers consult `closingOK` for that case). -/
def Encoder.writeClosingBoundary (e : Encoder) : Nat × Encoder :=
  let d := e.buffer.data
  (2, { e with buffer := { data := d.take (d.length - 2) ++ closingDashes,
                           pos := e.buffer.pos } })

/-- `_next_part`: pop the iterator and remember the part as current; on
`StopIteration` the current part is left as it was and `none` is returned. -/
def Encoder.nextPart (e : Encoder) : Option Part × Encoder :=
  match e.iterParts with
  | [] => (none, e)
  | p :: rest => (some p, { e with currentPart := some p, iterParts := rest })

/-- The guard of the ghost `closingOK` flag: at least two bytes stored and
the last two are CRLF. -/
def closingGuard (b : CBuf) : Bool :=
  decide (2 ≤ b.data.length) && decide (b.data.drop (b.data.length - 2) = CRLF)

/-- The closing arm of the load loop: write the closing boundary, mark the
encoder finished (and record the ghost guard). -/
def Encoder.closeOut (e : Encoder) : Encoder :=
  let ok := closingGuard e.buffer
  let r := e.writeClosingBoundary
  { r.2 with finished := true, closingOK := e.closingOK && ok }

/-- Weight of the part the loop holds: its unwritten byte count. -/
def partWeight : Option Part → Nat
  | none => 0
  | some p => (if p.headers_unread then p.headers.length else 0) + p.body.length

/-- Fuel that always suffices for the load loop (each iteration either
consumes part bytes or pops the iterator; see `Encoder.loadLoop_spec`). -/
def loadFuelBound (part : Option Part) (ps : List Part) : Nat :=
  partWeight part + (ps.map (fun q => partWeight (some q) + 1)).sum + 2

/-- The `while amount == -1 or amount > 0` loop of `_load`: an exhausted
current part triggers writing CRLF plus the next boundary line and popping
the iterator; an empty iterator triggers the closing boundary, `finished`,
and the break; otherwise the current part writes into the buffer and the
remaining amount shrinks by everything written this iteration. -/
def Encoder.loadLoop : Nat → Encoder → Option Part → Int → Encoder
  | 0, e, _, _ => e
  | Nat.succ fuel, e, part, amount =>
    if amount = -1 ∨ 0 < amount then
      match part with
      | none => e.closeOut
      | some p =>
        if p.bytesLeftToWrite then
          let r := p.writeTo e.buffer amount
          let e1 := { e with buffer := r.2.1, currentPart := some r.1 }
          let amount1 := if amount = -1 then amount else amount - (r.2.2 : Int)
          Encoder.loadLoop fuel e1 (some r.1) amount1
        else
          let t1 := e.write CRLF
          let t2 := t1.2.writeBoundary
          match t2.2.nextPart with
          | (none, e3) => e3.closeOut
          | (some q, e3) =>
            let r := q.writeTo e3.buffer amount
            let e4 := { e3 with buffer := r.2.1, currentPart := some r.1 }
            let amount1 :=
              if amount = -1 then amount
              else amount - ((t1.1 + t2.1 + r.2.2 : Nat) : Int)
            Encoder.loadLoop fuel e4 (some r.1) amount1
    else e

/-- `_load`: compact the buffer, take the current part (or pop the first),
then run the loop. -/
def Encoder.load (e : Encoder) (amount : Int) : Encoder :=
  let e1 : Encoder := { e with buffer := e.buffer.smartTruncate }
  match e1.currentPart with
  | some p => Encoder.loadLoop (loadFuelBound (some p) e1.iterParts) e1 (some p) amount
  | none =>
    let r := e1.nextPart
    Encoder.loadLoop (loadFuelBound r.1 r.2.iterParts) r.2 r.1 amount

/-- `_calculate_length`: `len(self._boundary) + len("\r\n\r\n")` per part
plus one extra such overhead, plus the parts' own fixed lengths. -/
def Encoder.calculateLength (e : Encoder) : Nat :=
  let boundarycrnlLen := e.boundary.length + 4
  (e.parts.map Part.len).sum + boundarycrnlLen * (e.parts.length + 1)

/-- `__len__`: the cached value unless it is unset (or zero, since the
source uses Python `or`), otherwise the computed length. -/
def Encoder.bodyLength (e : Encoder) : Nat :=
  match e.lenCache with
  | some n => if n = 0 then e.calculateLength else n
  | none => e.calculateLength

/-- `_calculate_load_amount`: the deficit between the requested read size
and the unread bytes already buffered, clamped to be non-negative. -/
def Encoder.calculateLoadAmount (e : Encoder) (readSize : Int) : Int :=
  let amount := readSize - (e.buffer.len : Int)
  if 0 < amount then amount else 0

/-- `read`: once finished, serve from the buffer alone; otherwise load the
deficit (everything, for an unbounded request) and then serve. -/
def Encoder.read (e : Encoder) (size : Int) : List Nat × Encoder :=
  if e.finished then
    let r := e.buffer.read size
    (r.1, { e with buffer := r.2 })
  else
    let bytesToLoad := if size = -1 then size else e.calculateLoadAmount size
    let e1 := e.load bytesToLoad
    let r := e1.buffer.read size
    (r.1, { e1 with buffer := r.2 })

/-- `__init__` with an explicit iteration chunk size: build the boundary
strings, build the parts eagerly from the fields in their given order,
start with an empty buffer and write the first boundary line into it. -/
def mkEncoderIter (flds : List (List Nat × List Nat)) (boundaryValue : List Nat)
    (iterSize : Int) : Encoder :=
  let boundary := [45, 45] ++ boundaryValue
  let encodedBoundary := boundary ++ CRLF
  let parts := flds.map (fun f => Part.ofField f.1 f.2)
  let e : Encoder :=
    { boundary := boundary, encodedBoundary := encodedBoundary,
      parts := parts, iterParts := parts, currentPart := none,
      finished := false, buffer := { data := [], pos := 0 },
      lenCache := none, iterReadSize := iterSize, closingOK := true }
  (e.writeBoundary).2

/-- `__init__` with the default `default_iter_size = 8192 * 4`. -/
def mkEncoder (flds : List (List Nat × List Nat)) (boundaryValue : List Nat) :
    Encoder :=
  mkEncoderIter flds boundaryValue 32768

/-- Draining the encoder through `__iter__`: while not finished, yield one
`read(self._iter_read_size)`; the concatenation of the yielded chunks. -/
def Encoder.iterDrain : Nat → Encoder → List Nat
  | 0, _ => []
  | Nat.succ fuel, e =>
    if e.finished then []
    else
      let r := e.read e.iterReadSize
      r.1 ++ Encoder.iterDrain fuel r.2

/-- Concatenation of repeated `read c` calls until a read comes back empty
(with fuel; any fuel at least the total stream length suffices). -/
def drainChunks (c : Int) : Encoder → Nat → List Nat
  | _, 0 => []
  | e, Nat.succ fuel =>
    let r := e.read c
    if r.1 = [] then [] else r.1 ++ drainChunks c r.2 fuel

/-! ### Abstract stream shapes -/

/-- Effect of the closing-boundary write on a whole byte string: the last
two bytes are replaced by the four closing bytes. -/
def closeSeal (l : List Nat) : List Nat := l.take (l.length - 2) ++ closingDashes

/-- Bytes a part still has to deliver. -/
def partRem (p : Part) : List Nat :=
  (if p.headers_unread then p.headers else []) ++ p.body

/-- Bytes a list of untouched parts delivers: for each part its header
block, its body, a CRLF and the next boundary line. -/
def streamTail (encB : List Nat) (ps : List Part) : List Nat :=
  (ps.map (fun p => p.headers ++ p.body ++ CRLF ++ encB)).flatten

/-- Bytes still to be generated when the load loop holds part `p` with the
iterator at `ps` (before the closing overwrite). -/
def pendFrom (encB : List Nat) (p : Part) (ps : List Part) : List Nat :=
  partRem p ++ (CRLF ++ (encB ++ streamTail encB ps))

/-- The whole pre-closing stream of an encoder. -/
def Encoder.streamPre (e : Encoder) : List Nat :=
  e.encodedBoundary ++ streamTail e.encodedBoundary e.parts

/-- The whole body stream of an encoder, closing overwrite applied. -/
def Encoder.fullOut (e : Encoder) : List Nat := closeSeal e.streamPre

/-- The multipart body in the order the spec promises: leading boundary
line, then for each field in the given order its header block, its body
and a CRLF followed by the next boundary line, with the final boundary
line turned into the closing delimiter. -/
def expectedStream (flds : List (List Nat × List Nat)) (bv : List Nat) :
    List Nat :=
  let encB := [45, 45] ++ bv ++ CRLF
  closeSeal (encB ++ (flds.map (fun f => f.1 ++ f.2 ++ CRLF ++ encB)).flatten)

/-- Number of body bytes `Part.writeLoop` consumes starting from a given
`written` count. -/
def loopCount (body : List Nat) (size : Int) (written : Nat) : Nat :=
  if size = -1 then body.length
  else if (written : Int) < size then min body.length (size - (written : Int)).toNat
  else 0

/-- Measure of the work left for the load loop. -/
def loadMeasure (p : Part) (ps : List Part) : Nat :=
  partWeight (some p) + (ps.map (fun q => partWeight (some q) + 1)).sum

/-! ### The state invariant

`frozenShape` collects the facts fixed at construction; `EncInvAt e k`
says the encoder is a reachable-shape state in which exactly the first
`k` bytes of its body stream have been handed to the caller. -/

def frozenShape (e : Encoder) : Prop :=
  (∃ bv, e.boundary = [45, 45] ++ bv ∧ e.encodedBoundary = [45, 45] ++ bv ++ CRLF) ∧
  e.closingOK = true ∧
  e.parts ≠ [] ∧
  (∀ q ∈ e.parts, q.headers_unread = true) ∧
  e.buffer.pos ≤ e.buffer.data.length

def EncInvAt (e : Encoder) (k : Nat) : Prop :=
  frozenShape e ∧
  ((e.finished = false ∧ e.currentPart = none ∧ e.iterParts = e.parts ∧
      e.buffer = { data := e.encodedBoundary, pos := 0 } ∧ k = 0) ∨
   (e.finished = false ∧ ∃ p, e.currentPart = some p ∧
      (∀ q ∈ e.iterParts, q.headers_unread = true) ∧
      k + e.buffer.unread.length +
        (pendFrom e.encodedBoundary p e.iterParts).length = e.streamPre.length ∧
      e.buffer.unread ++ pendFrom e.encodedBoundary p e.iterParts =
        e.streamPre.drop k) ∨
   (e.finished = true ∧ e.buffer.unread = e.fullOut.drop k ∧ k ≤ e.fullOut.length))

/-- States the public surface can produce: a constructed encoder, or the
result of any further `read`. -/
inductive Reachable : Encoder → Prop where
  | init : ∀ flds bv sz, Reachable (mkEncoderIter flds bv sz)
  | step : ∀ e s, Reachable e → Reachable (e.read s).2

/-! ### The tuple slip in `__init__` (dynamic-typing layer)

The source assigns

  self._encoded_boundary: bytes = (
      encode_with(self._boundary + "\r\n", self._enc),
  )

whose right-hand side is a parenthesized expression with a trailing comma,
i.e. a 1-tuple, although the annotation says `bytes`.  `_write_boundary`
then hands that value to `BytesIO.write`, which accepts only bytes-like
objects and raises `TypeError` for a tuple.  The small dynamic layer below
captures exactly that. -/

inductive PyVal where
  | pybytes : List Nat → PyVal
  | pytuple : List PyVal → PyVal
deriving Repr

inductive PyErr where
  | typeError
  | valueError
deriving Repr, DecidableEq

/-- The value the constructor actually stores in `_encoded_boundary`. -/
def encodedBoundaryPy (bv : List Nat) : PyVal :=
  PyVal.pytuple [PyVal.pybytes ([45, 45] ++ bv ++ CRLF)]

/-- `BytesIO.write` under dynamic typing: bytes are appended, anything
else raises `TypeError`. -/
def CBuf.writePy (b : CBuf) (v : PyVal) : Except PyErr (CBuf × Nat) :=
  match v with
  | PyVal.pybytes xs => Except.ok (b.append xs)
  | _ => Except.error PyErr.typeError

/-- The `self._write_boundary()` call at the end of `__init__`, performed
on the fresh empty buffer with the value `__init__` actually stored. -/
def initBoundaryWritePy (bv : List Nat) : Except PyErr (CBuf × Nat) :=
  CBuf.writePy { data := [], pos := 0 } (encodedBoundaryPy bv)

/-! ### `total_len` and Part construction over duck-typed sources

For claim C9 the body source is kept abstract as the set of size
accessors it exposes: `__len__`, a `len` attribute, a usable
`fileno()`-plus-`fstat` size (absent also when `fileno` raises
`io.UnsupportedOperation`), or `getvalue()`. -/

structure PySized where
  dunderLen : Option Nat
  lenAttr : Option Nat
  filenoSize : Option Nat
  getvalueBytes : Option (List Nat)
deriving Repr, DecidableEq

/-- `total_len`: probe `__len__`, then `len`, then `fileno`/`fstat`, then
`getvalue`, and raise `ValueError("Unable to compute size")` when none
applies. -/
def total_len (o : PySized) : Except PyErr Nat :=
  match o.dunderLen with
  | some n => Except.ok n
  | none =>
    match o.lenAttr with
    | some n => Except.ok n
    | none =>
      match o.filenoSize with
      | some n => Except.ok n
      | none =>
        match o.getvalueBytes with
        | some v => Except.ok v.length
        | none => Except.error PyErr.valueError

/-- Whether any of the four size accessors applies. -/
def PySized.hasSizeAccessor (o : PySized) : Bool :=
  o.dunderLen.isSome || o.lenAttr.isSome || o.filenoSize.isSome ||
    o.getvalueBytes.isSome

/-- What `Part.__init__` fixes about a part: its header bytes and its
total length `len(headers) + total_len(body)`. -/
structure PartMeta where
  headers : List Nat
  len : Nat
deriving Repr, DecidableEq

/-- `Part.__init__` over a duck-typed body: computing `self.len` runs
`total_len(self.body)` and propagates its failure. -/
def Part.initChecked (headers : List Nat) (body : PySized) :
    Except PyErr PartMeta := do
  let n ← total_len body
  pure { headers := headers, len := headers.length + n }

/-- `_prepare_parts` over duck-typed bodies: build every part eagerly; the
first failing `Part` construction aborts the whole encoder construction,
so no encoder object is produced. -/
def preparePartsChecked (flds : List (List Nat × PySized)) :
    Except PyErr (List PartMeta) :=
  flds.mapM (fun f => Part.initChecked f.1 f.2)

/-! ### Concrete inputs used by witnesses and counterexamples -/

/-- Equality of the fields a load loop never touches (plus the buffer
cursor, which only `read` and `smart_truncate` move). -/
def frozenEq (a b : Encoder) : Prop :=
  a.boundary = b.boundary ∧ a.encodedBoundary = b.encodedBoundary ∧
  a.parts = b.parts ∧ a.lenCache = b.lenCache ∧
  a.iterReadSize = b.iterReadSize ∧ a.buffer.pos = b.buffer.pos

/-- What one `_load` loop run does, seen from its entry state: either it
finished the stream (wrote everything pending and sealed it with the
closing overwrite) or it stopped with a non-negative remaining amount
after appending some prefix of the pending bytes. -/
def LoadOut (e : Encoder) (p : Part) (amount : Int) (r : Encoder) : Prop :=
  frozenEq r e ∧ r.closingOK = e.closingOK ∧
  ((r.finished = true ∧
     r.buffer.data =
       closeSeal (e.buffer.data ++ pendFrom e.encodedBoundary p e.iterParts)) ∨
   (r.finished = false ∧ ¬amount = -1 ∧ ∃ (k : Nat) (p1 : Part),
      amount ≤ (k : Int) ∧ r.currentPart = some p1 ∧
      (∀ q ∈ r.iterParts, q.headers_unread = true) ∧
      r.buffer.data =
        e.buffer.data ++ (pendFrom e.encodedBoundary p e.iterParts).take k ∧
      pendFrom e.encodedBoundary p1 r.iterParts =
        (pendFrom e.encodedBoundary p e.iterParts).drop k))

/-- The total-length formula exactly as the spec's words give it (claim C8):
`Σ part_len + overhead_len × (N + 1)` with
`overhead_len = len(boundary_delimiter_line)` and the boundary delimiter
line being `--boundary\r\n`, i.e. `overhead_len = bv.length + 4`.  This is
the one definition modelled from the spec rather than the source; it is
compared against `Encoder.calculateLength`. -/
def specTotalLengthC8 (flds : List (List Nat × List Nat)) (bv : List Nat) :
    Nat :=
  (flds.map (fun f => f.1.length + f.2.length)).sum +
    (bv.length + 4) * (flds.length + 1)

/-- One field: header block `[104, 100]`, body `[98]`. -/
def wflds : List (List Nat × List Nat) := [([104, 100], [98])]

/-- A fully drained (finished) one-field encoder with boundary value `X`. -/
def wEncDone : Encoder := ((mkEncoder wflds [88]).read (-1)).2

end MultipartEnc

namespace MultipartEnc

/-! ## Buffer lemmas -/

theorem CBuf.len_eq_unread_length (b : CBuf) : b.len = b.unread.length := by
  simp [CBuf.len, CBuf.unread]

theorem CBuf.smartTruncate_unread (b : CBuf) :
    b.smartTruncate.unread = b.unread := by
  simp only [CBuf.smartTruncate]
  split
  · simp [CBuf.unread]
  · rfl

theorem CBuf.smartTruncate_pos_le (b : CBuf) (h : b.pos ≤ b.data.length) :
    b.smartTruncate.pos ≤ b.smartTruncate.data.length := by
  simp only [CBuf.smartTruncate]
  split
  · exact Nat.zero_le _
  · exact h

theorem CBuf.smartTruncate_pos_zero (b : CBuf) (h : b.pos = 0) :
    b.smartTruncate = b := by
  simp only [CBuf.smartTruncate]
  split
  · cases b
    simp_all
  · rfl

theorem CBuf.read_fst (b : CBuf) (s : Int) :
    (b.read s).1 = if s < 0 then b.unread else b.unread.take s.toNat := by
  unfold CBuf.read
  split <;> rfl

theorem CBuf.read_snd_data (b : CBuf) (s : Int) : (b.read s).2.data = b.data := by
  unfold CBuf.read
  split <;> rfl

theorem CBuf.read_snd_unread (b : CBuf) (s : Int) :
    (b.read s).2.unread = if s < 0 then [] else b.unread.drop s.toNat := by
  unfold CBuf.read
  split
  · simp [CBuf.unread]
  · simp only [CBuf.unread, List.drop_drop]
    rcases Nat.le_total (b.pos + s.toNat) b.data.length with h | h
    · rw [Nat.min_eq_left h]
    · rw [Nat.min_eq_right h, List.drop_of_length_le (Nat.le_refl _),
        List.drop_of_length_le]
      omega

theorem CBuf.read_snd_pos_le (b : CBuf) (s : Int) :
    (b.read s).2.pos ≤ (b.read s).2.data.length := by
  unfold CBuf.read
  split
  · exact Nat.le_refl _
  · exact Nat.min_le_right _ _

/-! ## `Part.write_to` characterization -/

theorem Part.writeLoop_spec :
    ∀ (fuel : Nat) (body : List Nat) (buf : CBuf) (size : Int) (written : Nat),
      body.length < fuel →
      Part.writeLoop fuel body buf size written =
        (body.drop (loopCount body size written),
         { data := buf.data ++ body.take (loopCount body size written),
           pos := buf.pos },
         written + loopCount body size written) := by
  intro fuel
  induction fuel with
  | zero => intro body buf size written h; omega
  | succ fuel ih =>
    intro body buf size written h
    simp only [Part.writeLoop]
    split
    · rename_i hg
      rcases hg with ⟨hb, hs⟩
      rcases hs with hs | hs
      · -- unbounded: one pass consumes the whole body
        have hread : bodyRead body (if size = -1 then size else size - (written : Int))
            = body := by
          simp [hs, bodyRead]
        rw [hread, List.drop_length, ih [] _ _ _ (by simp only [List.length_nil]; omega)]
        have hc : loopCount body size written = body.length := by
          simp [loopCount, hs]
        have hc0 : loopCount [] size (written + body.length) = 0 := by
          simp [loopCount, hs]
        simp [hc, hc0, CBuf.append, List.take_length]
      · -- bounded with room left in the budget
        have hsne : ¬size = -1 := by omega
        have hread : bodyRead body (if size = -1 then size else size - (written : Int))
            = body.take (size - (written : Int)).toNat := by
          simp only [if_neg hsne, bodyRead,
            if_neg (by omega : ¬size - (written : Int) < 0)]
        set t := (size - (written : Int)).toNat with ht
        have ht1 : 1 ≤ t := by omega
        rw [hread]
        rcases Nat.le_total body.length t with hbt | hbt
        · -- the body runs out first
          have htake : body.take t = body := List.take_of_length_le hbt
          rw [htake, List.drop_length, ih [] _ _ _ (by simp only [List.length_nil]; omega)]
          have hc : loopCount body size written = body.length := by
            simp only [loopCount, if_neg hsne, if_pos hs, ← ht]
            omega
          have hc0 : loopCount [] size (written + body.length) = 0 := by
            simp [loopCount, hsne]
          simp [hc, hc0, CBuf.append, List.take_length]
        · -- the budget runs out first
          have hlen : (body.take t).length = t := by
            simp only [List.length_take]
            omega
          rw [hlen, ih _ _ _ _ (by simp only [List.length_drop]; omega)]
          have hc0 : loopCount (body.drop t) size (written + t) = 0 := by
            simp only [loopCount, if_neg hsne]
            rw [if_neg (by push_cast; omega)]
          have hc : loopCount body size written = t := by
            simp only [loopCount, if_neg hsne, if_pos hs, ← ht]
            omega
          simp [hc, hc0, CBuf.append]
    · rename_i hg
      have hc : loopCount body size written = 0 := by
        rcases Nat.eq_zero_or_pos body.length with hb | hb
        · simp [loopCount, hb]
        · have h1 : ¬size = -1 := fun hx => hg ⟨hb, Or.inl hx⟩
          have h2 : ¬((written : Int) < size) := fun hx => hg ⟨hb, Or.inr hx⟩
          simp [loopCount, h1, h2]
      simp [hc]

theorem Part.hsLength (p : Part) :
    (if p.headers_unread then p.headers else []).length =
      (if p.headers_unread then p.headers.length else 0) := by
  by_cases h : p.headers_unread = true <;> simp [h]

theorem Part.writeTo_spec (p : Part) (buf : CBuf) (size : Int) :
    p.writeTo buf size =
      ({ p with
           headers_unread := false
           body := p.body.drop (p.bodyTakeCount size) },
       { data := buf.data ++ ((if p.headers_unread then p.headers else []) ++
           p.body.take (p.bodyTakeCount size)), pos := buf.pos },
       (if p.headers_unread then p.headers else []).length +
         p.bodyTakeCount size) := by
  by_cases h : p.headers_unread = true
  · have hc : p.bodyTakeCount size = loopCount p.body size p.headers.length := by
      simp [Part.bodyTakeCount, loopCount, h]
    simp only [Part.writeTo, h, CBuf.append,
      Part.writeLoop_spec _ _ _ _ _ (Nat.lt_succ_self _), hc, if_true,
      List.append_assoc]
  · have hb : p.headers_unread = false := by simpa using h
    have hc : p.bodyTakeCount size = loopCount p.body size 0 := by
      simp [Part.bodyTakeCount, loopCount, hb]
    simp only [Part.writeTo, hb, Bool.false_eq_true, if_false,
      Part.writeLoop_spec _ _ _ _ _ (Nat.lt_succ_self _), hc,
      List.nil_append, List.length_nil, Nat.zero_add]

theorem Part.bodyTakeCount_le (p : Part) (size : Int) :
    p.bodyTakeCount size ≤ p.body.length := by
  simp only [Part.bodyTakeCount]
  split_ifs <;> omega

/-- Budget accounting: what a `write_to` reports written lowers the part's
unwritten weight by exactly that much. -/
theorem Part.partWeight_writeTo (p : Part) (buf : CBuf) (size : Int) :
    partWeight (some (p.writeTo buf size).1) + (p.writeTo buf size).2.2 =
      partWeight (some p) := by
  rw [Part.writeTo_spec]
  have := p.bodyTakeCount_le size
  by_cases h : p.headers_unread = true <;>
    simp [partWeight, h, List.length_drop] <;> omega

/-- With any budget the load loop passes (`-1` or positive), a part that
still has bytes writes at least one. -/
theorem Part.writeTo_written_pos (p : Part) (buf : CBuf) (size : Int)
    (h1 : p.bytesLeftToWrite = true) (h2 : size = -1 ∨ 0 < size) :
    1 ≤ (p.writeTo buf size).2.2 := by
  simp only [Part.writeTo_spec]
  simp only [Part.bytesLeftToWrite, decide_eq_true_eq] at h1
  rw [Part.hsLength]
  by_cases hh : 0 < (if p.headers_unread = true then p.headers.length else 0)
  · omega
  · have hb : 0 < p.body.length := by omega
    have hct : 0 < p.bodyTakeCount size := by
      rcases h2 with h2 | h2
      · simp [Part.bodyTakeCount, h2, hb]
      · have hsne : ¬size = -1 := by omega
        simp only [Part.bodyTakeCount, if_neg hsne]
        rw [Part.hsLength, if_pos (by omega)]
        omega
    omega

/-- The bytes a `write_to` appends are exactly the next `written` bytes
the part still owed. -/
theorem Part.partRem_take_writeTo (p : Part) (size : Int) :
    (if p.headers_unread then p.headers else []) ++
        p.body.take (p.bodyTakeCount size) =
      (partRem p).take ((if p.headers_unread then p.headers else []).length +
        p.bodyTakeCount size) := by
  simp [partRem, List.take_append]

theorem Part.partRem_drop_writeTo (p : Part) (buf : CBuf) (size : Int) :
    partRem (p.writeTo buf size).1 =
      (partRem p).drop ((if p.headers_unread then p.headers else []).length +
        p.bodyTakeCount size) := by
  rw [Part.writeTo_spec]
  simp [partRem, List.drop_append]

/-! ## Pending-stream algebra -/

theorem partWeight_eq_partRem_length (p : Part) :
    partWeight (some p) = (partRem p).length := by
  by_cases h : p.headers_unread = true <;> simp [partWeight, partRem, h]

theorem partRem_of_not_bytesLeft (p : Part) (h : ¬p.bytesLeftToWrite = true) :
    partRem p = [] := by
  simp only [Part.bytesLeftToWrite, decide_eq_true_eq, not_lt,
    Nat.le_zero] at h
  by_cases hu : p.headers_unread = true
  · rw [if_pos hu] at h
    have h1 : p.headers = [] := List.length_eq_zero.mp (by omega)
    have h2 : p.body = [] := List.length_eq_zero.mp (by omega)
    simp [partRem, hu, h1, h2]
  · rw [if_neg hu] at h
    have h2 : p.body = [] := List.length_eq_zero.mp (by omega)
    simp [partRem, hu, h2]

theorem writtenBound_le_partRem (p : Part) (size : Int) :
    (if p.headers_unread then p.headers else []).length + p.bodyTakeCount size
      ≤ (partRem p).length := by
  have := p.bodyTakeCount_le size
  simp only [partRem, List.length_append]
  omega

theorem pendFrom_take_writeTo (encB : List Nat) (p : Part) (size : Int)
    (ps : List Part) :
    (pendFrom encB p ps).take
        ((if p.headers_unread then p.headers else []).length +
          p.bodyTakeCount size) =
      (if p.headers_unread then p.headers else []) ++
        p.body.take (p.bodyTakeCount size) := by
  rw [pendFrom, List.take_append_of_le_length (writtenBound_le_partRem p size),
    partRem, List.take_append]

theorem pendFrom_drop_writeTo (encB : List Nat) (p : Part) (buf : CBuf)
    (size : Int) (ps : List Part) :
    pendFrom encB (p.writeTo buf size).1 ps =
      (pendFrom encB p ps).drop
        ((if p.headers_unread then p.headers else []).length +
          p.bodyTakeCount size) := by
  rw [pendFrom, pendFrom, Part.partRem_drop_writeTo,
    List.drop_append_of_le_length (writtenBound_le_partRem p size)]

theorem pendFrom_cons (encB : List Nat) (p q : Part) (rest : List Part)
    (hp : partRem p = []) (hq : q.headers_unread = true) :
    pendFrom encB p (q :: rest) = (CRLF ++ encB) ++ pendFrom encB q rest := by
  rw [pendFrom, hp, pendFrom]
  simp [streamTail, partRem, hq, List.append_assoc]

theorem closingGuard_crlf (D : List Nat) (pos : Nat) :
    closingGuard { data := D ++ CRLF, pos := pos } = true := by
  simp only [closingGuard, Bool.and_eq_true, decide_eq_true_eq]
  constructor
  · simp [CRLF]
  · have h2 : (D ++ CRLF).length - 2 = D.length := by simp [CRLF]
    rw [h2, List.drop_left]

/-! ## Encoder-operation lemmas -/

theorem Encoder.write_snd (e : Encoder) (xs : List Nat) :
    (e.write xs).2 =
      { e with buffer := { data := e.buffer.data ++ xs, pos := e.buffer.pos } } :=
  rfl

theorem Encoder.write_fst (e : Encoder) (xs : List Nat) :
    (e.write xs).1 = xs.length := rfl

theorem Encoder.closeOut_spec (e : Encoder) :
    e.closeOut =
      { e with
          buffer := { data := closeSeal e.buffer.data, pos := e.buffer.pos }
          finished := true
          closingOK := e.closingOK && closingGuard e.buffer } := by
  simp [Encoder.closeOut, Encoder.writeClosingBoundary, closeSeal]

/-! ## Pieces for the load-loop specification -/

theorem partRem_step (p : Part) (size : Int) :
    partRem { p with
        headers_unread := false
        body := p.body.drop (p.bodyTakeCount size) } =
      p.body.drop (p.bodyTakeCount size) := by
  simp [partRem]

theorem pendFrom_drop_step (encB : List Nat) (p : Part) (size : Int)
    (ps : List Part) :
    pendFrom encB
        { p with
            headers_unread := false
            body := p.body.drop (p.bodyTakeCount size) } ps =
      (pendFrom encB p ps).drop
        ((if p.headers_unread then p.headers else []).length +
          p.bodyTakeCount size) := by
  rw [pendFrom, pendFrom, partRem_step,
    List.drop_append_of_le_length (writtenBound_le_partRem p size), partRem,
    List.drop_append]

theorem partWeight_step (p : Part) (size : Int) :
    partWeight (some { p with
        headers_unread := false
        body := p.body.drop (p.bodyTakeCount size) }) +
      ((if p.headers_unread then p.headers else []).length +
        p.bodyTakeCount size) = partWeight (some p) := by
  have h := p.bodyTakeCount_le size
  by_cases hu : p.headers_unread = true <;>
    simp [partWeight, hu, List.length_drop] <;> omega

theorem written_pos_step (p : Part) (size : Int)
    (h1 : p.bytesLeftToWrite = true) (h2 : size = -1 ∨ 0 < size) :
    1 ≤ (if p.headers_unread then p.headers else []).length +
      p.bodyTakeCount size := by
  have h := Part.writeTo_written_pos p { data := [], pos := 0 } size h1 h2
  rw [Part.writeTo_spec] at h
  simpa using h

/-- Composing one loop iteration that appended the next `w` pending bytes
with the outcome of the remaining iterations. -/
theorem LoadOut.step (e e1 : Encoder) (p p1 : Part) (amount amount1 : Int)
    (w : Nat) (r : Encoder)
    (hout : LoadOut e1 p1 amount1 r)
    (hfz : frozenEq e1 e)
    (hcl : e1.closingOK = e.closingOK)
    (hdata : e1.buffer.data =
      e.buffer.data ++ (pendFrom e.encodedBoundary p e.iterParts).take w)
    (hpend : pendFrom e.encodedBoundary p1 e1.iterParts =
      (pendFrom e.encodedBoundary p e.iterParts).drop w)
    (hamt : amount1 = if amount = -1 then amount else amount - (w : Int)) :
    LoadOut e p amount r := by
  obtain ⟨⟨z1, z2, z3, z4, z5, z6⟩, c1, out1⟩ := hout
  obtain ⟨y1, y2, y3, y4, y5, y6⟩ := hfz
  refine ⟨⟨z1.trans y1, z2.trans y2, z3.trans y3, z4.trans y4,
    z5.trans y5, z6.trans y6⟩, c1.trans hcl, ?_⟩
  rcases out1 with ⟨hf, hd⟩ | ⟨hf, hne1, k2, p2, hk2, hc2, hfr2, hd2, hp2⟩
  · left
    refine ⟨hf, ?_⟩
    rw [hd, y2, hpend, hdata, List.append_assoc, List.take_append_drop]
  · right
    have hne : ¬amount = -1 := by
      intro hx
      apply hne1
      rw [hamt, if_pos hx, hx]
    rw [y2] at hd2 hp2
    refine ⟨hf, hne, w + k2, p2, ?_, hc2, hfr2, ?_, ?_⟩
    · rw [hamt, if_neg hne] at hk2
      push_cast
      omega
    · rw [hd2, hpend, hdata, List.append_assoc, ← List.take_add]
    · rw [hp2, hpend, List.drop_drop]

/-- The load loop meets its specification whenever its fuel covers the
remaining work, the encoder is unfinished, the loop's part is the current
one, the pending parts are untouched, and the boundary line ends in CRLF. -/
theorem Encoder.loadLoop_spec :
    ∀ (fuel : Nat) (e : Encoder) (p : Part) (amount : Int),
      loadMeasure p e.iterParts + 1 ≤ fuel →
      e.finished = false →
      e.currentPart = some p →
      (∀ q ∈ e.iterParts, q.headers_unread = true) →
      (∃ t, e.encodedBoundary = t ++ CRLF) →
      LoadOut e p amount (Encoder.loadLoop fuel e (some p) amount) := by
  intro fuel
  induction fuel with
  | zero => intro e p amount hfuel _ _ _ _; omega
  | succ fuel ih =>
    intro e p amount hfuel hfin hcur hfresh hEB
    simp only [Encoder.loadLoop]
    by_cases hg : amount = -1 ∨ 0 < amount
    · rw [if_pos hg]
      by_cases hpb : p.bytesLeftToWrite = true
      · -- the current part still has bytes: plain write_to, then recurse
        simp only [hpb, if_true]
        rw [Part.writeTo_spec]
        refine LoadOut.step e _ p _ amount _
          ((if p.headers_unread then p.headers else []).length +
            p.bodyTakeCount amount) _
          (ih _ _ _ ?_ ?_ ?_ ?_ ?_) ?_ ?_ ?_ ?_ ?_
        · -- fuel bound for the recursive call
          have h1 := partWeight_step p amount
          have h2 := written_pos_step p amount hpb hg
          simp only [loadMeasure] at hfuel ⊢
          omega
        · exact hfin
        · rfl
        · exact hfresh
        · exact hEB
        · exact ⟨rfl, rfl, rfl, rfl, rfl, rfl⟩
        · rfl
        · rw [pendFrom_take_writeTo]
        · exact pendFrom_drop_step e.encodedBoundary p amount e.iterParts
        · rfl
      · -- the current part is exhausted: CRLF + boundary, next part
        have hprem : partRem p = [] := partRem_of_not_bytesLeft p hpb
        have hpw0 : partWeight (some p) = 0 := by
          rw [partWeight_eq_partRem_length, hprem]
          rfl
        have hpbf : p.bytesLeftToWrite = false := by
          simpa using hpb
        simp only [hpbf, Bool.false_eq_true, if_false]
        simp only [Encoder.write, Encoder.writeBoundary, CBuf.append]
        rcases hiter : e.iterParts with _ | ⟨q, rest⟩
        · -- no next part: closing boundary, finished
          simp only [Encoder.nextPart, hiter]
          rw [Encoder.closeOut_spec]
          obtain ⟨t, ht⟩ := hEB
          refine ⟨⟨rfl, rfl, rfl, rfl, rfl, rfl⟩, ?_, Or.inl ⟨rfl, ?_⟩⟩
          · dsimp only
            have hguard : closingGuard
                { data := (e.buffer.data ++ CRLF) ++ e.encodedBoundary,
                  pos := e.buffer.pos } = true := by
              rw [ht, ← List.append_assoc]
              exact closingGuard_crlf _ _
            rw [hguard, Bool.and_true]
          · dsimp only
            congr 1
            rw [hiter, pendFrom, hprem]
            simp [streamTail, List.append_assoc]
        · -- advance to the next part, write into it, recurse
          simp only [Encoder.nextPart, hiter]
          rw [Part.writeTo_spec]
          have hq : q.headers_unread = true :=
            hfresh q (by rw [hiter]; exact List.mem_cons_self _ _)
          have hqrest : ∀ x ∈ rest, x.headers_unread = true := by
            intro x hx
            exact hfresh x (by rw [hiter]; exact List.mem_cons_of_mem _ hx)
          have hcons := pendFrom_cons e.encodedBoundary p q rest hprem hq
          refine LoadOut.step e _ p _ amount _
            ((CRLF ++ e.encodedBoundary).length +
              ((if q.headers_unread then q.headers else []).length +
                q.bodyTakeCount amount)) _
            (ih _ _ _ ?_ ?_ ?_ ?_ ?_) ?_ ?_ ?_ ?_ ?_
          · -- fuel bound for the recursive call
            have h1 := partWeight_step q amount
            rw [hiter] at hfuel
            simp only [loadMeasure, List.map_cons, List.sum_cons] at hfuel ⊢
            omega
          · exact hfin
          · rfl
          · exact hqrest
          · exact hEB
          · exact ⟨rfl, rfl, rfl, rfl, rfl, rfl⟩
          · rfl
          · -- the bytes this iteration appended are the next pending bytes
            rw [hiter, hcons, List.take_append, pendFrom_take_writeTo]
            simp [List.append_assoc]
          · -- the new pending stream is the old one shifted
            rw [hiter, hcons, List.drop_append, pendFrom_drop_step]
          · -- the amount bookkeeping matches the appended byte count
            simp [List.length_append]
    · rw [if_neg hg]
      push_neg at hg
      refine ⟨⟨rfl, rfl, rfl, rfl, rfl, rfl⟩, rfl,
        Or.inr ⟨hfin, hg.1, 0, p, ?_, hcur, hfresh, ?_, ?_⟩⟩
      · exact_mod_cast hg.2
      · simp
      · simp

/-! ## Closing-seal algebra -/

theorem length_closeSeal (l : List Nat) (h : 2 ≤ l.length) :
    (closeSeal l).length = l.length + 2 := by
  simp [closeSeal, closingDashes, List.length_take]
  omega

theorem closeSeal_append (a b : List Nat) (h : 2 ≤ b.length) :
    closeSeal (a ++ b) = a ++ closeSeal b := by
  simp only [closeSeal, List.length_append]
  have h2 : a.length + b.length - 2 = a.length + (b.length - 2) := by omega
  rw [h2, List.take_append, List.append_assoc]

theorem closeSeal_drop (u p l : List Nat) (k : Nat) (hp2 : 2 ≤ p.length)
    (hk : u ++ p = l.drop k) (hkl : k + u.length + p.length = l.length) :
    u ++ closeSeal p = (closeSeal l).drop k := by
  have hkle : k ≤ l.length - 2 := by omega
  have hlen : (l.take (l.length - 2)).length = l.length - 2 := by
    simp [List.length_take]
  rw [closeSeal, closeSeal,
    List.drop_append_of_le_length (by omega : k ≤ (l.take (l.length - 2)).length),
    List.drop_take]
  have h3 : l.length - 2 - k = u.length + (p.length - 2) := by omega
  rw [h3, ← hk, List.take_append, ← List.append_assoc]

theorem closeSeal_take_eq (l : List Nat) (k m : Nat) (h : k + m + 2 ≤ l.length) :
    ((closeSeal l).drop k).take m = (l.drop k).take m := by
  rw [closeSeal,
    List.drop_append_of_le_length
      (by simp [List.length_take]; omega : k ≤ (l.take (l.length - 2)).length),
    List.drop_take,
    List.take_append_of_le_length
      (by simp [List.length_take, List.length_drop]; omega),
    List.take_take, Nat.min_eq_left (by omega)]

/-! ## Stream shapes of a constructed encoder -/

theorem streamTail_cons_fresh (encB : List Nat) (q : Part) (rest : List Part)
    (hq : q.headers_unread = true) :
    streamTail encB (q :: rest) = pendFrom encB q rest := by
  simp [streamTail, pendFrom, partRem, hq, List.append_assoc]

theorem pendFrom_length_ge (encB : List Nat) (p : Part) (ps : List Part) :
    2 + encB.length ≤ (pendFrom encB p ps).length := by
  simp [pendFrom, CRLF]
  omega

theorem fullOut_congr (a b : Encoder) (h1 : a.parts = b.parts)
    (h2 : a.encodedBoundary = b.encodedBoundary) : a.fullOut = b.fullOut := by
  simp [Encoder.fullOut, Encoder.streamPre, h1, h2]

theorem streamPre_length_ge (e : Encoder) (bv : List Nat)
    (h : e.encodedBoundary = [45, 45] ++ bv ++ CRLF) :
    4 ≤ e.streamPre.length := by
  simp [Encoder.streamPre, h, CRLF]
  omega

/-! ## Entering the load loop -/

theorem LoadOut.unbounded_finished (e : Encoder) (p : Part) (r : Encoder)
    (h : LoadOut e p (-1) r) :
    frozenEq r e ∧ r.closingOK = e.closingOK ∧ r.finished = true ∧
    r.buffer.data =
      closeSeal (e.buffer.data ++ pendFrom e.encodedBoundary p e.iterParts) := by
  obtain ⟨hf, hc, hout⟩ := h
  rcases hout with ⟨h1, h2⟩ | ⟨_, hne, _⟩
  · exact ⟨hf, hc, h1, h2⟩
  · exact absurd rfl hne

theorem loadFuelBound_ok (p : Part) (ps : List Part) :
    loadMeasure p ps + 1 ≤ loadFuelBound (some p) ps := by
  simp [loadFuelBound, loadMeasure]

theorem Encoder.load_spec_current (e : Encoder) (p : Part) (amount : Int)
    (hfin : e.finished = false) (hcur : e.currentPart = some p)
    (hfresh : ∀ q ∈ e.iterParts, q.headers_unread = true)
    (hEB : ∃ t, e.encodedBoundary = t ++ CRLF) :
    LoadOut { e with buffer := e.buffer.smartTruncate } p amount
      (e.load amount) := by
  simp only [Encoder.load, hcur]
  exact Encoder.loadLoop_spec _ _ _ _ (loadFuelBound_ok p _) hfin rfl hfresh hEB

theorem Encoder.load_spec_start (e : Encoder) (q : Part) (rest : List Part)
    (amount : Int)
    (hfin : e.finished = false) (hcur : e.currentPart = none)
    (hiter : e.iterParts = q :: rest)
    (hfresh : ∀ x ∈ e.iterParts, x.headers_unread = true)
    (hEB : ∃ t, e.encodedBoundary = t ++ CRLF) :
    LoadOut
      { e with
          buffer := e.buffer.smartTruncate
          currentPart := some q
          iterParts := rest } q amount
      (e.load amount) := by
  simp only [Encoder.load, hcur, Encoder.nextPart, hiter]
  refine Encoder.loadLoop_spec _ _ _ _ (loadFuelBound_ok q _) hfin rfl ?_ hEB
  intro x hx
  exact hfresh x (by rw [hiter]; exact List.mem_cons_of_mem _ hx)

theorem Encoder.loadLoop_none (fuel : Nat) (e : Encoder) (amount : Int)
    (h : 1 ≤ fuel) :
    Encoder.loadLoop fuel e none amount =
      if amount = -1 ∨ 0 < amount then e.closeOut else e := by
  cases fuel with
  | zero => omega
  | succ n =>
    simp only [Encoder.loadLoop]

theorem Encoder.load_nil (e : Encoder) (amount : Int)
    (hcur : e.currentPart = none) (hiter : e.iterParts = []) :
    e.load amount =
      if amount = -1 ∨ 0 < amount then
        Encoder.closeOut { e with buffer := e.buffer.smartTruncate }
      else { e with buffer := e.buffer.smartTruncate } := by
  simp only [Encoder.load, hcur, Encoder.nextPart, hiter]
  rw [Encoder.loadLoop_none _ _ _ (by simp [loadFuelBound, partWeight])]

/-! ## Reading from the buffer preserves the invariant -/

theorem take_min_length (l : List Nat) (n : Nat) :
    l.take n = l.take (min n l.length) := by
  rcases Nat.le_total n l.length with h | h
  · rw [Nat.min_eq_left h]
  · rw [Nat.min_eq_right h, List.take_of_length_le h, List.take_length]

theorem drop_congr_of_ge (l : List Nat) (a b : Nat) (ha : l.length ≤ a)
    (hb : l.length ≤ b) : l.drop a = l.drop b := by
  rw [List.drop_eq_nil_of_le ha, List.drop_eq_nil_of_le hb]

theorem frozenShape_setBuffer (e : Encoder) (b : CBuf) (h : frozenShape e)
    (hb : b.pos ≤ b.data.length) : frozenShape { e with buffer := b } := by
  obtain ⟨h1, h2, h3, h4, _⟩ := h
  exact ⟨h1, h2, h3, h4, hb⟩

theorem EncInvAt_buflen_le (e : Encoder) (k : Nat) (hInv : EncInvAt e k) :
    k + e.buffer.len ≤ e.fullOut.length ∧
    (e.finished = true → e.buffer.len = e.fullOut.length - k) := by
  obtain ⟨hfz, hcase⟩ := hInv
  obtain ⟨⟨bv, hbd, hEB⟩, _, _, _, hpos⟩ := hfz
  have hSpre : 4 ≤ e.streamPre.length := streamPre_length_ge e bv hEB
  have hF : e.fullOut.length = e.streamPre.length + 2 :=
    length_closeSeal _ (by omega)
  rcases hcase with ⟨hf, _, _, hbuf, hk0⟩ | ⟨hf, p, _, _, hlen, _⟩ |
    ⟨hf, hu, hk⟩
  · constructor
    · rw [hbuf, hk0]
      simp only [CBuf.len]
      simp only [Encoder.streamPre, List.length_append] at hSpre hF ⊢
      omega
    · intro hx
      rw [hf] at hx
      exact absurd hx (by simp)
  · have hp2 := pendFrom_length_ge e.encodedBoundary p e.iterParts
    rw [CBuf.len_eq_unread_length]
    constructor
    · omega
    · intro hx
      rw [hf] at hx
      exact absurd hx (by simp)
  · rw [CBuf.len_eq_unread_length, hu, List.length_drop]
    omega

theorem EncInvAt_setBuffer_mid (e : Encoder) (b : CBuf) (k : Nat) (p : Part)
    (hfz : frozenShape e) (hb : b.pos ≤ b.data.length)
    (hf : e.finished = false) (hcur : e.currentPart = some p)
    (hfr : ∀ q ∈ e.iterParts, q.headers_unread = true)
    (hlen : k + b.unread.length +
      (pendFrom e.encodedBoundary p e.iterParts).length = e.streamPre.length)
    (heq : b.unread ++ pendFrom e.encodedBoundary p e.iterParts =
      e.streamPre.drop k) :
    EncInvAt { e with buffer := b } k :=
  ⟨frozenShape_setBuffer e b hfz hb,
   Or.inr (Or.inl ⟨hf, p, hcur, hfr, hlen, heq⟩)⟩

theorem EncInvAt_setBuffer_fin (e : Encoder) (b : CBuf) (k : Nat)
    (hfz : frozenShape e) (hb : b.pos ≤ b.data.length)
    (hf : e.finished = true) (hu : b.unread = e.fullOut.drop k)
    (hk : k ≤ e.fullOut.length) :
    EncInvAt { e with buffer := b } k :=
  ⟨frozenShape_setBuffer e b hfz hb, Or.inr (Or.inr ⟨hf, hu, hk⟩)⟩

theorem Encoder.buffer_read_inv (e : Encoder) (k : Nat) (s : Int)
    (hInv : EncInvAt e k)
    (hnp : e.finished = false → ¬e.currentPart = none) :
    ∃ m : Nat,
      m = (if s < 0 then e.buffer.len else min s.toNat e.buffer.len) ∧
      EncInvAt { e with buffer := (e.buffer.read s).2 } (k + m) ∧
      (e.buffer.read s).1 = (e.fullOut.drop k).take m := by
  obtain ⟨hfz, hcase⟩ := hInv
  have hfz1 := hfz
  obtain ⟨⟨bv, hbd, hEB⟩, hok, hpne, hpfr, hpos⟩ := hfz1
  have hSpre : 4 ≤ e.streamPre.length := streamPre_length_ge e bv hEB
  have hF : e.fullOut.length = e.streamPre.length + 2 :=
    length_closeSeal _ (by omega)
  have hul : e.buffer.unread.length = e.buffer.len :=
    (CBuf.len_eq_unread_length e.buffer).symm
  have hbp : (e.buffer.read s).2.pos ≤ (e.buffer.read s).2.data.length :=
    CBuf.read_snd_pos_le e.buffer s
  have hunr := CBuf.read_snd_unread e.buffer s
  have hout := CBuf.read_fst e.buffer s
  rcases hcase with ⟨hf, hcn, _, _, _⟩ | ⟨hf, p, hcur, hfr, hlen, heq⟩ |
    ⟨hf, hu, hk⟩
  · exact absurd hcn (hnp hf)
  · -- mid-stream state
    have hp2 := pendFrom_length_ge e.encodedBoundary p e.iterParts
    have hutake : e.buffer.unread =
        (e.streamPre.drop k).take e.buffer.len := by
      rw [← hul, ← heq]
      exact (List.take_left _ _).symm
    have hpdrop : pendFrom e.encodedBoundary p e.iterParts =
        e.streamPre.drop (k + e.buffer.len) := by
      have h1 := congrArg (List.drop e.buffer.unread.length) heq
      rw [List.drop_left, List.drop_drop] at h1
      rw [← hul]
      exact h1
    by_cases hs : s < 0
    · rw [if_pos hs] at hunr hout
      refine ⟨e.buffer.len, by rw [if_pos hs],
        EncInvAt_setBuffer_mid e _ _ p hfz hbp hf hcur hfr ?_ ?_, ?_⟩
      · rw [hunr]
        simp only [List.length_nil]
        omega
      · rw [hunr, List.nil_append, hpdrop]
      · rw [hout, Encoder.fullOut,
          closeSeal_take_eq e.streamPre k e.buffer.len (by omega), hutake]
    · rw [if_neg hs] at hunr hout
      by_cases ht : s.toNat ≤ e.buffer.len
      · refine ⟨s.toNat, by rw [if_neg hs, Nat.min_eq_left ht],
          EncInvAt_setBuffer_mid e _ _ p hfz hbp hf hcur hfr ?_ ?_, ?_⟩
        · rw [hunr, List.length_drop]
          omega
        · rw [hunr]
          have h1 := congrArg (List.drop s.toNat) heq
          rw [List.drop_append_of_le_length (by omega)] at h1
          rw [h1, List.drop_drop, Nat.add_comm]
        · rw [hout, Encoder.fullOut,
            closeSeal_take_eq e.streamPre k s.toNat (by omega), hutake,
            List.take_take, Nat.min_eq_left (by omega)]
      · push_neg at ht
        refine ⟨e.buffer.len, by rw [if_neg hs, Nat.min_eq_right (by omega)],
          EncInvAt_setBuffer_mid e _ _ p hfz hbp hf hcur hfr ?_ ?_, ?_⟩
        · rw [hunr, List.drop_eq_nil_of_le (by omega)]
          simp only [List.length_nil]
          omega
        · rw [hunr, List.drop_eq_nil_of_le (by omega), List.nil_append,
            hpdrop]
        · rw [hout, Encoder.fullOut,
            closeSeal_take_eq e.streamPre k e.buffer.len (by omega),
            take_min_length e.buffer.unread s.toNat, hul,
            Nat.min_eq_right (by omega), hutake, List.take_take,
            Nat.min_self]
  · -- finished state
    have hlen2 : e.buffer.unread.length = e.fullOut.length - k := by
      rw [hu, List.length_drop]
    by_cases hs : s < 0
    · rw [if_pos hs] at hunr hout
      refine ⟨e.buffer.len, by rw [if_pos hs],
        EncInvAt_setBuffer_fin e _ _ hfz hbp hf ?_ (by omega), ?_⟩
      · rw [hunr, List.drop_eq_nil_of_le (by omega)]
      · rw [hout, hu, ← hul, hlen2,
          List.take_of_length_le (by rw [List.length_drop])]
    · rw [if_neg hs] at hunr hout
      refine ⟨min s.toNat e.buffer.len, by rw [if_neg hs],
        EncInvAt_setBuffer_fin e _ _ hfz hbp hf ?_ (by omega), ?_⟩
      · rw [hunr, hu, List.drop_drop]
        by_cases ht : s.toNat ≤ e.buffer.len
        · rw [Nat.min_eq_left ht, Nat.add_comm]
        · push_neg at ht
          exact drop_congr_of_ge _ _ _ (by omega) (by omega)
      · rw [hout, take_min_length e.buffer.unread s.toNat, hul, hu]

theorem streamPre_congr (a b : Encoder) (h1 : a.parts = b.parts)
    (h2 : a.encodedBoundary = b.encodedBoundary) :
    a.streamPre = b.streamPre := by
  simp [Encoder.streamPre, h1, h2]

theorem frozenShape_transfer (e0 r : Encoder) (hfz : frozenShape e0)
    (hb : r.boundary = e0.boundary)
    (hEB : r.encodedBoundary = e0.encodedBoundary)
    (hparts : r.parts = e0.parts) (hok : r.closingOK = true)
    (hpos : r.buffer.pos ≤ r.buffer.data.length) : frozenShape r := by
  obtain ⟨⟨bv, h1, h2⟩, _, h3, h4, _⟩ := hfz
  exact ⟨⟨bv, by rw [hb, h1], by rw [hEB, h2]⟩, hok, by rw [hparts]; exact h3,
    by rw [hparts]; exact h4, hpos⟩

/-- Loading (with any amount) preserves the invariant at the same consumed
count, never removes parts, grows the unread span by at least the
requested amount unless it finished, and always finishes on `-1`. -/
theorem Encoder.load_inv_gen (e : Encoder) (k : Nat) (a : Int)
    (hInv : EncInvAt e k) (hf : e.finished = false) :
    EncInvAt (e.load a) k ∧
    (e.load a).parts = e.parts ∧
    (e.load a).encodedBoundary = e.encodedBoundary ∧
    ((e.load a).finished = false →
      ¬(e.load a).currentPart = none ∧
      (e.buffer.len : Int) + a ≤ ((e.load a).buffer.len : Int)) ∧
    (a = -1 → (e.load a).finished = true) := by
  obtain ⟨hfz, hcase⟩ := hInv
  have hfz1 := hfz
  obtain ⟨⟨bv, hbd, hEB⟩, hok, hpne, hpfr, hpos⟩ := hfz1
  have hEB' : ∃ t, e.encodedBoundary = t ++ CRLF := ⟨[45, 45] ++ bv, by
    rw [hEB, List.append_assoc]⟩
  have hSpre : 4 ≤ e.streamPre.length := streamPre_length_ge e bv hEB
  have hF : e.fullOut.length = e.streamPre.length + 2 :=
    length_closeSeal _ (by omega)
  have htrud : List.drop e.buffer.smartTruncate.pos e.buffer.smartTruncate.data
      = e.buffer.unread := CBuf.smartTruncate_unread e.buffer
  have htrup : e.buffer.smartTruncate.pos ≤ e.buffer.smartTruncate.data.length :=
    CBuf.smartTruncate_pos_le e.buffer hpos
  have hul : e.buffer.unread.length = e.buffer.len :=
    (CBuf.len_eq_unread_length e.buffer).symm
  rcases hcase with ⟨_, hcn, hit, hbuf, hk0⟩ | ⟨_, p, hcur, hfr, hlen, heq⟩ |
    ⟨hfin1, _, _⟩
  · -- pristine state: the load pops the first part
    obtain ⟨q, rest, hparts⟩ := List.exists_cons_of_ne_nil hpne
    have hiters : e.iterParts = q :: rest := by rw [hit, hparts]
    have hq : q.headers_unread = true :=
      hpfr q (by rw [hparts]; exact List.mem_cons_self _ _)
    have hout := Encoder.load_spec_start e q rest a hf hcn hiters
      (fun x hx => hpfr x (by rw [← hit]; exact hx)) hEB'
    have htr0 : e.buffer.smartTruncate = e.buffer :=
      CBuf.smartTruncate_pos_zero e.buffer (by rw [hbuf])
    rw [htr0] at hout
    obtain ⟨⟨z1, z2, z3, z4, z5, z6⟩, cOK, out⟩ := hout
    have z2' : (e.load a).encodedBoundary = e.encodedBoundary := z2
    have z3' : (e.load a).parts = e.parts := z3
    have cOK' : (e.load a).closingOK = e.closingOK := cOK
    have hppos : (e.load a).buffer.pos = 0 := by
      have h0 : e.buffer.pos = 0 := by rw [hbuf]
      exact (z6 : (e.load a).buffer.pos = e.buffer.pos).trans h0
    have hSpre2 : e.streamPre =
        e.encodedBoundary ++ pendFrom e.encodedBoundary q rest := by
      rw [Encoder.streamPre, hparts, streamTail_cons_fresh _ _ _ hq]
    have hp2 := pendFrom_length_ge e.encodedBoundary q rest
    have hbd0 : e.buffer.data = e.encodedBoundary := by rw [hbuf]
    have hFe : (e.load a).fullOut = e.fullOut := fullOut_congr _ e z3' z2'
    rcases out with ⟨hf1, hd1⟩ | ⟨hf1, hne1, k1, p1, hk1, hc1, hfr1, hd1, hp1⟩
    · -- finished during this load
      have hpdata : (e.load a).buffer.data =
          closeSeal (e.encodedBoundary ++ pendFrom e.encodedBoundary q rest) := by
        refine (hd1 : (e.load a).buffer.data = closeSeal (e.buffer.data ++
          pendFrom e.encodedBoundary q rest)).trans ?_
        rw [hbd0]
      have hu1 : (e.load a).buffer.unread = (e.load a).fullOut.drop k := by
        rw [CBuf.unread, hppos, hpdata, List.drop_zero, hFe, hk0,
          List.drop_zero, Encoder.fullOut, hSpre2]
      refine ⟨⟨frozenShape_transfer e _ hfz z1 z2' z3' (cOK'.trans hok) (by
          rw [hppos]; exact Nat.zero_le _),
        Or.inr (Or.inr ⟨hf1, hu1, by rw [hFe]; omega⟩)⟩, z3', z2', ?_,
        fun _ => hf1⟩
      intro hx
      rw [hx] at hf1
      exact absurd hf1 (by simp)
    · -- stopped while parts remain
      have hp2' := pendFrom_length_ge e.encodedBoundary p1 (e.load a).iterParts
      have hp1' : pendFrom e.encodedBoundary p1 (e.load a).iterParts =
          (pendFrom e.encodedBoundary q rest).drop k1 := hp1
      have hk1le : k1 ≤ (pendFrom e.encodedBoundary q rest).length := by
        have hx := congrArg List.length hp1'
        rw [List.length_drop] at hx
        omega
      have hpdata : (e.load a).buffer.data = e.encodedBoundary ++
          (pendFrom e.encodedBoundary q rest).take k1 := by
        refine (hd1 : (e.load a).buffer.data = e.buffer.data ++
          (pendFrom e.encodedBoundary q rest).take k1).trans ?_
        rw [hbd0]
      have hunr : (e.load a).buffer.unread = e.encodedBoundary ++
          (pendFrom e.encodedBoundary q rest).take k1 := by
        rw [CBuf.unread, hppos, hpdata, List.drop_zero]
      refine ⟨⟨frozenShape_transfer e _ hfz z1 z2' z3' (cOK'.trans hok) (by
          rw [hppos]; exact Nat.zero_le _),
        Or.inr (Or.inl ⟨hf1, p1, hc1, hfr1, ?_, ?_⟩)⟩, z3', z2', ?_, ?_⟩
      · rw [streamPre_congr (e.load a) e z3' z2', z2', hunr, hp1', hk0, hSpre2]
        simp only [List.length_append, List.length_take, List.length_drop]
        omega
      · rw [streamPre_congr (e.load a) e z3' z2', z2', hunr, hp1', hk0,
          List.drop_zero, hSpre2, List.append_assoc, List.take_append_drop]
      · intro _
        refine ⟨by rw [hc1]; simp, ?_⟩
        have hbl : (e.load a).buffer.len = e.encodedBoundary.length + k1 := by
          rw [CBuf.len_eq_unread_length, hunr]
          simp only [List.length_append, List.length_take]
          omega
        have hbe : e.buffer.len = e.encodedBoundary.length := by
          rw [hbuf]
          simp [CBuf.len]
        rw [hbl, hbe]
        push_cast
        omega
      · intro hx
        exact absurd hx hne1
  · -- mid-stream state
    have hout := Encoder.load_spec_current e p a hf hcur hfr hEB'
    obtain ⟨⟨z1, z2, z3, z4, z5, z6⟩, cOK, out⟩ := hout
    have z2' : (e.load a).encodedBoundary = e.encodedBoundary := z2
    have z3' : (e.load a).parts = e.parts := z3
    have cOK' : (e.load a).closingOK = e.closingOK := cOK
    have hppos : (e.load a).buffer.pos = e.buffer.smartTruncate.pos := z6
    have hp2 := pendFrom_length_ge e.encodedBoundary p e.iterParts
    have hFe : (e.load a).fullOut = e.fullOut := fullOut_congr _ e z3' z2'
    rcases out with ⟨hf1, hd1⟩ | ⟨hf1, hne1, k1, p1, hk1, hc1, hfr1, hd1, hp1⟩
    · -- finished during this load
      have hpdata : (e.load a).buffer.data = closeSeal
          (e.buffer.smartTruncate.data ++
            pendFrom e.encodedBoundary p e.iterParts) := hd1
      have hlc : 2 ≤ (e.buffer.smartTruncate.data ++
          pendFrom e.encodedBoundary p e.iterParts).length := by
        simp only [List.length_append]
        omega
      have hu1 : (e.load a).buffer.unread = (e.load a).fullOut.drop k := by
        rw [CBuf.unread, hppos, hpdata, closeSeal_append _ _ (by omega),
          List.drop_append_of_le_length htrup, htrud, hFe, Encoder.fullOut]
        exact closeSeal_drop _ _ _ k (by omega) heq (by omega)
      refine ⟨⟨frozenShape_transfer e _ hfz z1 z2' z3' (cOK'.trans hok) ?_,
        Or.inr (Or.inr ⟨hf1, hu1, by rw [hFe]; omega⟩)⟩, z3', z2', ?_,
        fun _ => hf1⟩
      · rw [hppos, hpdata, length_closeSeal _ hlc]
        simp only [List.length_append]
        omega
      · intro hx
        rw [hx] at hf1
        exact absurd hf1 (by simp)
    · -- stopped while parts remain
      have hp1' : pendFrom e.encodedBoundary p1 (e.load a).iterParts =
          (pendFrom e.encodedBoundary p e.iterParts).drop k1 := hp1
      have hp2' := pendFrom_length_ge e.encodedBoundary p1 (e.load a).iterParts
      have hk1le : k1 ≤ (pendFrom e.encodedBoundary p e.iterParts).length := by
        have hx := congrArg List.length hp1'
        rw [List.length_drop] at hx
        omega
      have hpdata : (e.load a).buffer.data = e.buffer.smartTruncate.data ++
          (pendFrom e.encodedBoundary p e.iterParts).take k1 := hd1
      have hunr : (e.load a).buffer.unread = e.buffer.unread ++
          (pendFrom e.encodedBoundary p e.iterParts).take k1 := by
        rw [CBuf.unread, hppos, hpdata,
          List.drop_append_of_le_length htrup, htrud]
      refine ⟨⟨frozenShape_transfer e _ hfz z1 z2' z3' (cOK'.trans hok) ?_,
        Or.inr (Or.inl ⟨hf1, p1, hc1, hfr1, ?_, ?_⟩)⟩, z3', z2', ?_, ?_⟩
      · rw [hppos, hpdata]
        simp only [List.length_append]
        omega
      · rw [streamPre_congr (e.load a) e z3' z2', z2', hunr, hp1']
        simp only [List.length_append, List.length_take, List.length_drop]
        omega
      · rw [streamPre_congr (e.load a) e z3' z2', z2', hunr, hp1',
          List.append_assoc, List.take_append_drop]
        exact heq
      · intro _
        refine ⟨by rw [hc1]; simp, ?_⟩
        have hbl : (e.load a).buffer.len = e.buffer.unread.length + k1 := by
          rw [CBuf.len_eq_unread_length, hunr]
          simp only [List.length_append, List.length_take]
          omega
        rw [hbl, ← hul]
        push_cast
        omega
      · intro hx
        exact absurd hx hne1
  · rw [hfin1] at hf
    exact absurd hf (by simp)

/-- A freshly constructed encoder with at least one field satisfies the
invariant with nothing consumed. -/
theorem EncInvAt_init (flds : List (List Nat × List Nat)) (bv : List Nat)
    (sz : Int) (hne : flds ≠ []) :
    EncInvAt (mkEncoderIter flds bv sz) 0 := by
  refine ⟨⟨⟨bv, rfl, rfl⟩, rfl, ?_, ?_, ?_⟩,
    Or.inl ⟨rfl, rfl, rfl, rfl, rfl⟩⟩
  · show flds.map (fun f => Part.ofField f.1 f.2) ≠ []
    simpa using hne
  · show ∀ q ∈ flds.map (fun f => Part.ofField f.1 f.2), q.headers_unread = true
    intro q hq
    obtain ⟨f, _, hfq⟩ := List.mem_map.mp hq
    rw [← hfq]
    rfl
  · exact Nat.zero_le _

/-- One `read` call from any invariant state: it returns the next `m`
bytes of the body stream and re-establishes the invariant `m` further in;
for a positive requested size, `m` is exactly the requested size capped by
what remains. -/
theorem Encoder.read_step (e : Encoder) (k : Nat) (s : Int)
    (hInv : EncInvAt e k) :
    ∃ m : Nat,
      EncInvAt (e.read s).2 (k + m) ∧
      (e.read s).1 = (e.fullOut.drop k).take m ∧
      (e.read s).2.parts = e.parts ∧
      (e.read s).2.encodedBoundary = e.encodedBoundary ∧
      (1 ≤ s → m = min s.toNat (e.fullOut.length - k)) := by
  by_cases hf : e.finished = true
  · -- already finished: serve from the buffer with no loading
    have hble := EncInvAt_buflen_le e k hInv
    obtain ⟨m, hm, hInv2, hout⟩ := Encoder.buffer_read_inv e k s hInv
      (fun hx => absurd hf (by rw [hx]; simp))
    have hread : e.read s =
        ((e.buffer.read s).1, { e with buffer := (e.buffer.read s).2 }) := by
      simp [Encoder.read, hf]
    refine ⟨m, by rw [hread]; exact hInv2, by rw [hread]; exact hout,
      by rw [hread], by rw [hread], ?_⟩
    intro hs
    rw [hm, if_neg (by omega), hble.2 hf]
  · have hf' : e.finished = false := by simpa using hf
    by_cases hs : s = -1
    · -- unbounded read: load everything, then drain the buffer
      obtain ⟨hI1, hparts1, hEB1, _, hfinish1⟩ :=
        Encoder.load_inv_gen e k s hInv hf'
      have hfin1 : (e.load s).finished = true := hfinish1 hs
      have hFe : (e.load s).fullOut = e.fullOut :=
        fullOut_congr _ e hparts1 hEB1
      obtain ⟨m, hm, hInv2, hout⟩ := Encoder.buffer_read_inv (e.load s) k s hI1
        (fun hx => absurd hfin1 (by rw [hx]; simp))
      have hread : e.read s =
          (((e.load s).buffer.read s).1,
           { e.load s with buffer := ((e.load s).buffer.read s).2 }) := by
        simp only [Encoder.read, hf', Bool.false_eq_true, if_false, hs]
        rfl
      refine ⟨m, by rw [hread]; exact hInv2, ?_, ?_, ?_, ?_⟩
      · rw [hread]
        show ((e.load s).buffer.read s).1 = _
        rw [hout, hFe]
      · rw [hread]
        exact hparts1
      · rw [hread]
        exact hEB1
      · intro hx
        rw [hs] at hx
        exact absurd hx (by omega)
    · -- bounded read: load the deficit, then serve from the buffer
      obtain ⟨hI1, hparts1, hEB1, hrest1, _⟩ :=
        Encoder.load_inv_gen e k (e.calculateLoadAmount s) hInv hf'
      have hFe : (e.load (e.calculateLoadAmount s)).fullOut = e.fullOut :=
        fullOut_congr _ e hparts1 hEB1
      have hble := EncInvAt_buflen_le (e.load (e.calculateLoadAmount s)) k hI1
      obtain ⟨m, hm, hInv2, hout⟩ :=
        Encoder.buffer_read_inv (e.load (e.calculateLoadAmount s)) k s hI1
          (fun hx => (hrest1 hx).1)
      have hread : e.read s =
          (((e.load (e.calculateLoadAmount s)).buffer.read s).1,
           { e.load (e.calculateLoadAmount s) with
               buffer := ((e.load (e.calculateLoadAmount s)).buffer.read s).2 }) := by
        simp only [Encoder.read, hf', Bool.false_eq_true, if_false, if_neg hs]
      refine ⟨m, by rw [hread]; exact hInv2, ?_, ?_, ?_, ?_⟩
      · rw [hread]
        show ((e.load (e.calculateLoadAmount s)).buffer.read s).1 = _
        rw [hout, hFe]
      · rw [hread]
        exact hparts1
      · rw [hread]
        exact hEB1
      · intro hsp
        rw [hm, if_neg (by omega)]
        rw [hFe] at hble
        by_cases hfin2 : (e.load (e.calculateLoadAmount s)).finished = true
        · rw [hble.2 hfin2]
        · obtain ⟨_, hgrow⟩ := hrest1 (by simpa using hfin2)
          have hcalcge : (s : Int) ≤
              (e.buffer.len : Int) + e.calculateLoadAmount s := by
            simp only [Encoder.calculateLoadAmount]
            split <;> omega
          have h1 := hble.1
          omega

/-- An unbounded `read` from any unfinished invariant state drains the
whole remaining body stream and leaves a finished, empty encoder. -/
theorem Encoder.read_all (e : Encoder) (k : Nat) (hInv : EncInvAt e k)
    (hf : e.finished = false) :
    (e.read (-1)).1 = e.fullOut.drop k ∧
    (e.read (-1)).2.finished = true ∧
    (e.read (-1)).2.buffer.len = 0 ∧
    (e.read (-1)).2.parts = e.parts ∧
    (e.read (-1)).2.encodedBoundary = e.encodedBoundary ∧
    (e.read (-1)).2.closingOK = true := by
  obtain ⟨hI1, hparts1, hEB1, _, hfinish1⟩ :=
    Encoder.load_inv_gen e k (-1) hInv hf
  have hfin1 : (e.load (-1)).finished = true := hfinish1 rfl
  have hFe : (e.load (-1)).fullOut = e.fullOut :=
    fullOut_congr _ e hparts1 hEB1
  have hread : e.read (-1) =
      (((e.load (-1)).buffer.read (-1)).1,
       { e.load (-1) with buffer := ((e.load (-1)).buffer.read (-1)).2 }) := by
    simp [Encoder.read, hf]
  obtain ⟨hfz1, hcase1⟩ := hI1
  have hok1 : (e.load (-1)).closingOK = true := hfz1.2.1
  rcases hcase1 with ⟨hx, _⟩ | ⟨hx, _⟩ | ⟨_, hu, hk⟩
  · rw [hfin1] at hx
    exact absurd hx (by simp)
  · rw [hfin1] at hx
    exact absurd hx (by simp)
  · have hout := CBuf.read_fst (e.load (-1)).buffer (-1)
    have hunr := CBuf.read_snd_unread (e.load (-1)).buffer (-1)
    rw [if_pos (by omega)] at hout hunr
    refine ⟨?_, by rw [hread]; exact hfin1, ?_, by rw [hread]; exact hparts1,
      by rw [hread]; exact hEB1, by rw [hread]; exact hok1⟩
    · rw [hread]
      show ((e.load (-1)).buffer.read (-1)).1 = _
      rw [hout, hu, hFe]
    · rw [hread]
      show ((e.load (-1)).buffer.read (-1)).2.len = 0
      rw [CBuf.len_eq_unread_length, hunr]
      rfl

theorem streamTail_map_ofField (encB : List Nat)
    (flds : List (List Nat × List Nat)) :
    streamTail encB (flds.map fun f => Part.ofField f.1 f.2) =
      (flds.map fun f => f.1 ++ f.2 ++ CRLF ++ encB).flatten := by
  simp [streamTail, List.map_map, Part.ofField, Function.comp_def]

theorem fullOut_mk (flds : List (List Nat × List Nat)) (bv : List Nat)
    (sz : Int) :
    (mkEncoderIter flds bv sz).fullOut = expectedStream flds bv := by
  show closeSeal (([45, 45] ++ bv ++ CRLF) ++
    streamTail ([45, 45] ++ bv ++ CRLF) (flds.map fun f => Part.ofField f.1 f.2)) = _
  rw [streamTail_map_ofField, expectedStream]

/-- A single unbounded `read` on a fresh encoder yields exactly the spec's
stream: leading boundary line, then each field's headers, body, CRLF and
boundary line in field order, with the last boundary line sealed into the
closing delimiter. -/
theorem read_unbounded_eq_expected (flds : List (List Nat × List Nat))
    (bv : List Nat) (sz : Int) :
    ((mkEncoderIter flds bv sz).read (-1)).1 = expectedStream flds bv := by
  rcases hne : flds with _ | ⟨f, rest⟩
  · -- zero fields: the first load immediately writes the closing boundary
    have hload := Encoder.load_nil (mkEncoderIter [] bv sz) (-1) rfl rfl
    rw [if_pos (Or.inl rfl)] at hload
    have htr : (mkEncoderIter [] bv sz).buffer.smartTruncate =
        (mkEncoderIter [] bv sz).buffer :=
      CBuf.smartTruncate_pos_zero _ rfl
    rw [htr] at hload
    have hread : (mkEncoderIter [] bv sz).read (-1) =
        ((((mkEncoderIter [] bv sz).load (-1)).buffer.read (-1)).1,
         { (mkEncoderIter [] bv sz).load (-1) with
             buffer := (((mkEncoderIter [] bv sz).load (-1)).buffer.read (-1)).2 }) := by
      simp [Encoder.read,
        show (mkEncoderIter [] bv sz).finished = false from rfl]
    rw [hread]
    show ((((mkEncoderIter [] bv sz).load (-1)).buffer.read (-1))).1 = _
    rw [hload, Encoder.closeOut_spec]
    show (CBuf.read _ (-1)).1 = _
    rw [CBuf.read_fst, if_pos (by omega)]
    show List.drop 0 (closeSeal ([45, 45] ++ bv ++ CRLF)) = _
    rw [List.drop_zero, expectedStream]
    simp [streamTail]
  · have h0 := Encoder.read_all (mkEncoderIter flds bv sz) 0
      (EncInvAt_init flds bv sz (by rw [hne]; simp)) rfl
    rw [← hne]
    rw [hne] at h0 ⊢
    rw [h0.1, List.drop_zero, fullOut_mk]

/-! ## Length of the produced stream versus the computed length -/

theorem length_flatten_fields (encB : List Nat)
    (flds : List (List Nat × List Nat)) :
    ((flds.map (fun f => f.1 ++ f.2 ++ CRLF ++ encB)).flatten).length =
      (flds.map (fun f => f.1.length + f.2.length)).sum +
        (encB.length + 2) * flds.length := by
  induction flds with
  | nil => simp
  | cons f rest ih =>
    simp only [List.map_cons, List.flatten_cons, List.length_append,
      List.sum_cons, List.length_cons, ih]
    have hc : CRLF.length = 2 := rfl
    rw [hc, Nat.mul_succ]
    ring

theorem expectedStream_length (flds : List (List Nat × List Nat))
    (bv : List Nat) :
    (expectedStream flds bv).length =
      (flds.map (fun f => f.1.length + f.2.length)).sum +
        (bv.length + 6) * (flds.length + 1) := by
  simp only [expectedStream]
  rw [length_closeSeal _ (by simp [CRLF])]
  rw [List.length_append, length_flatten_fields]
  simp only [List.length_append, List.length_cons, List.length_nil, CRLF]
  ring

theorem calculateLength_mk (flds : List (List Nat × List Nat)) (bv : List Nat)
    (sz : Int) :
    (mkEncoderIter flds bv sz).calculateLength =
      (flds.map (fun f => f.1.length + f.2.length)).sum +
        (bv.length + 6) * (flds.length + 1) := by
  show ((flds.map (fun f => Part.ofField f.1 f.2)).map Part.len).sum +
      (([45, 45] ++ bv).length + 4) *
        ((flds.map (fun f => Part.ofField f.1 f.2)).length + 1) = _
  simp only [List.map_map, List.length_map, List.length_append,
    List.length_cons, List.length_nil, Function.comp_def, Part.ofField]
  ring

/-- The fresh encoder's `__len__` is the computed length: nothing is cached
at construction. -/
theorem bodyLength_mk (flds : List (List Nat × List Nat)) (bv : List Nat)
    (sz : Int) :
    (mkEncoderIter flds bv sz).bodyLength =
      (mkEncoderIter flds bv sz).calculateLength := rfl

/-! ## Chunked draining -/

theorem drainChunks_spec (c : Int) (hc : 1 ≤ c) :
    ∀ (fuel : Nat) (e : Encoder) (k : Nat), EncInvAt e k →
      e.fullOut.length - k ≤ fuel →
      drainChunks c e fuel = e.fullOut.drop k := by
  intro fuel
  induction fuel with
  | zero =>
    intro e k hInv hfu
    have hdk : e.fullOut.drop k = [] := List.drop_eq_nil_of_le (by omega)
    rw [hdk]
    rfl
  | succ fuel ih =>
    intro e k hInv hfu
    obtain ⟨m, hInv2, hout, hparts, hEB, hm⟩ := Encoder.read_step e k c hInv
    have hm' : m = min c.toNat (e.fullOut.length - k) := hm hc
    have hF2 : (e.read c).2.fullOut = e.fullOut := fullOut_congr _ e hparts hEB
    simp only [drainChunks]
    by_cases hend : e.fullOut.length ≤ k
    · have hdk : e.fullOut.drop k = [] := List.drop_eq_nil_of_le hend
      have hout0 : (e.read c).1 = [] := by rw [hout, hdk]; simp
      rw [if_pos hout0, hdk]
    · have hcn : 1 ≤ c.toNat := by omega
      have hm1 : 1 ≤ m := by omega
      have hlen : (e.read c).1.length = min m (e.fullOut.length - k) := by
        rw [hout]
        simp [List.length_take, List.length_drop]
      have hne2 : ¬(e.read c).1 = [] := by
        intro hx
        rw [hx] at hlen
        simp only [List.length_nil] at hlen
        omega
      rw [if_neg hne2, hout,
        ih (e.read c).2 (k + m) hInv2 (by rw [hF2]; omega), hF2]
      have hsplit : e.fullOut.drop (k + m) = (e.fullOut.drop k).drop m := by
        rw [List.drop_drop, Nat.add_comm]
      rw [hsplit, List.take_append_drop]

/-! ## The parts list survives every public operation -/

theorem Encoder.loadLoop_parts :
    ∀ (fuel : Nat) (e : Encoder) (part : Option Part) (amount : Int),
      (Encoder.loadLoop fuel e part amount).parts = e.parts := by
  intro fuel
  induction fuel with
  | zero => intro e part amount; rfl
  | succ fuel ih =>
    intro e part amount
    simp only [Encoder.loadLoop]
    by_cases hg : amount = -1 ∨ 0 < amount
    · rw [if_pos hg]
      cases part with
      | none => rfl
      | some p =>
        by_cases hpb : p.bytesLeftToWrite = true
        · simp only [hpb, if_true]
          rw [ih]
        · have hpbf : p.bytesLeftToWrite = false := by simpa using hpb
          simp only [hpbf, Bool.false_eq_true, if_false]
          simp only [Encoder.write, Encoder.writeBoundary, CBuf.append]
          rcases hiter : e.iterParts with _ | ⟨q, rest⟩
          · simp only [Encoder.nextPart, hiter]
            rfl
          · simp only [Encoder.nextPart, hiter]
            rw [ih]
    · rw [if_neg hg]

theorem Encoder.load_parts (e : Encoder) (amount : Int) :
    (e.load amount).parts = e.parts := by
  rcases hc : e.currentPart with _ | p
  · rcases hi : e.iterParts with _ | ⟨q, rest⟩
    · simp only [Encoder.load, hc, Encoder.nextPart, hi]
      rw [Encoder.loadLoop_parts]
    · simp only [Encoder.load, hc, Encoder.nextPart, hi]
      rw [Encoder.loadLoop_parts]
  · simp only [Encoder.load, hc]
    rw [Encoder.loadLoop_parts]

theorem Encoder.read_parts (e : Encoder) (s : Int) :
    (e.read s).2.parts = e.parts := by
  by_cases hf : e.finished = true
  · simp [Encoder.read, hf]
  · have hf' : e.finished = false := by simpa using hf
    simp only [Encoder.read, hf', Bool.false_eq_true, if_false]
    exact Encoder.load_parts e _

/-- Every state the public surface reaches from at least one field carries
the invariant at some stream offset. -/
theorem reachable_inv (e : Encoder) (hr : Reachable e) :
    e.parts ≠ [] → ∃ k, EncInvAt e k := by
  induction hr with
  | init flds bv sz =>
    intro hne
    refine ⟨0, EncInvAt_init flds bv sz ?_⟩
    intro h
    exact hne (by subst h; rfl)
  | step e0 s hr0 ih =>
    intro hne
    have hp : e0.parts ≠ [] := fun h =>
      hne (by rw [Encoder.read_parts, h])
    obtain ⟨k, hI⟩ := ih hp
    obtain ⟨m, hI2, -, -, -, -⟩ := Encoder.read_step e0 k s hI
    exact ⟨k + m, hI2⟩

/-! ## The stream ends in the closing delimiter -/

theorem streamTail_cons_eq (encB : List Nat) (p : Part) (rest : List Part) :
    streamTail encB (p :: rest) =
      (p.headers ++ p.body ++ CRLF ++ encB) ++ streamTail encB rest := by
  simp [streamTail]

theorem streamTail_ends_boundary (encB : List Nat) (ps : List Part)
    (h : ps ≠ []) : ∃ t, streamTail encB ps = t ++ encB := by
  induction ps with
  | nil => exact absurd rfl h
  | cons p rest ih =>
    rcases hr : rest with _ | ⟨q, r⟩
    · refine ⟨p.headers ++ p.body ++ CRLF, ?_⟩
      subst hr
      rw [streamTail_cons_eq]
      simp [streamTail, List.append_assoc]
    · obtain ⟨t, ht⟩ := ih (by rw [hr]; simp)
      rw [hr] at ht
      refine ⟨(p.headers ++ p.body ++ CRLF ++ encB) ++ t, ?_⟩
      rw [streamTail_cons_eq, ht]
      simp [List.append_assoc]

theorem closeSeal_crlf_append (X : List Nat) :
    closeSeal (X ++ CRLF) = X ++ closingDashes := by
  rw [closeSeal]
  have h : (X ++ CRLF).length - 2 = X.length := by simp [CRLF]
  rw [h, List.take_left]

theorem fullOut_ends_closing (e : Encoder) (bv : List Nat)
    (hEB : e.encodedBoundary = [45, 45] ++ bv ++ CRLF) :
    ∃ t, e.fullOut = t ++ ([45, 45] ++ (bv ++ closingDashes)) := by
  rcases hps : e.parts with _ | ⟨p, rest⟩
  · refine ⟨[], ?_⟩
    rw [Encoder.fullOut, Encoder.streamPre, hps]
    rw [show streamTail e.encodedBoundary [] = [] from rfl]
    rw [List.append_nil, hEB]
    rw [show ([45, 45] ++ bv ++ CRLF : List Nat) =
      ([45, 45] ++ bv) ++ CRLF from by simp [List.append_assoc]]
    rw [closeSeal_crlf_append]
    simp [List.append_assoc]
  · have hne : e.parts ≠ [] := by rw [hps]; simp
    obtain ⟨t, ht⟩ := streamTail_ends_boundary e.encodedBoundary e.parts hne
    refine ⟨e.encodedBoundary ++ t, ?_⟩
    rw [Encoder.fullOut, Encoder.streamPre, ht, hEB]
    have hre : (([45, 45] ++ (bv ++ CRLF)) ++
        (t ++ ([45, 45] ++ (bv ++ CRLF))) : List Nat) =
        ((([45, 45] ++ (bv ++ CRLF)) ++ t) ++ ([45, 45] ++ bv)) ++ CRLF := by
      simp [List.append_assoc]
    rw [show ([45, 45] ++ bv ++ CRLF : List Nat) = [45, 45] ++ (bv ++ CRLF)
      from by simp [List.append_assoc]] at *
    rw [hre, closeSeal_crlf_append]
    simp [List.append_assoc]

/-! ## The claims -/

/-- Claim C1: for every field set, the encoder's precomputed total length
(`content_length` / `__len__`) equals the exact number of bytes a single
unbounded `read` yields when it fully drains the stream. -/
theorem claim_C1 (flds : List (List Nat × List Nat)) (bv : List Nat)
    (sz : Int) :
    (mkEncoderIter flds bv sz).bodyLength =
      (((mkEncoderIter flds bv sz).read (-1)).1).length := by
  rw [read_unbounded_eq_expected, bodyLength_mk, calculateLength_mk,
    expectedStream_length]

/-- Claim C2 (amended: at least one field): for any chunk size `c ≥ 1`,
concatenating successive `read c` results until a read comes back empty
equals the single unbounded `read` on a fresh encoder built from the same
fields and boundary. -/
theorem claim_C2 (flds : List (List Nat × List Nat)) (bv : List Nat)
    (sz c : Int) (fuel : Nat) (hne : flds ≠ []) (hc : 1 ≤ c)
    (hfuel : (expectedStream flds bv).length ≤ fuel) :
    drainChunks c (mkEncoderIter flds bv sz) fuel =
      ((mkEncoderIter flds bv sz).read (-1)).1 := by
  have h0 := drainChunks_spec c hc fuel (mkEncoderIter flds bv sz) 0
    (EncInvAt_init flds bv sz hne) (by rw [fullOut_mk]; omega)
  rw [h0, List.drop_zero, fullOut_mk, read_unbounded_eq_expected]

/-- Witness for claim C2 at one field, boundary `X`, chunk size 1. -/
theorem claim_C2_wit :
    wflds ≠ [] ∧ (1 : Int) ≤ 1 ∧
    (expectedStream wflds [88]).length ≤ 20 ∧
    drainChunks 1 (mkEncoderIter wflds [88] 32768) 20 =
      ((mkEncoderIter wflds [88] 32768).read (-1)).1 :=
  ⟨by decide, by decide, by decide,
   claim_C2 wflds [88] 32768 1 20 (by decide) (by decide) (by decide)⟩

/-- Counterexample to claim C2 as stated: with zero fields, chunked reads
split around the closing-boundary backward overwrite and the concatenation
differs from the single unbounded read. -/
theorem claim_C2_cex :
    drainChunks 4 (mkEncoder [] [88]) 30 ≠
      ((mkEncoder [] [88]).read (-1)).1 := by
  decide

/-- Claim C3 (code bug): `__init__` assigns `_encoded_boundary` a
parenthesized expression with a trailing comma — a 1-tuple, not bytes; the
`self._write_boundary()` call at the end of the constructor then hands that
tuple to `BytesIO.write`, which raises `TypeError` for every boundary, so
construction never leaves the buffer holding the leading boundary line. -/
theorem claim_C3 (bv : List Nat) :
    initBoundaryWritePy bv = Except.error PyErr.typeError := rfl

/-- Claim C4 (code bug): iteration stops as soon as `finished` is true, but
a bounded `read` can set `finished` while unread bytes remain buffered, so
iteration drops them.  With one field (headers `hd`, body `b`), boundary
`X` and iteration chunk size 15, the stream has 17 bytes; the first
`read 15` finishes the encoder with 2 bytes still buffered, and draining
through the iteration interface yields only the first 15 bytes. -/
theorem claim_C4 :
    (mkEncoderIter wflds [88] 15).fullOut.length = 17 ∧
    ((mkEncoderIter wflds [88] 15).read 15).2.finished = true ∧
    ((mkEncoderIter wflds [88] 15).read 15).2.buffer.len = 2 ∧
    Encoder.iterDrain 6 (mkEncoderIter wflds [88] 15) =
      (mkEncoderIter wflds [88] 15).fullOut.take 15 := by
  decide

/-- Claim C5: once the encoder is finished, every further `read` is served
purely from the buffer (no loading, the state changes only by the buffer
cursor), the cached length never changes, and once the buffer is also
empty every further `read` returns the empty result and stays finished. -/
theorem claim_C5 (e : Encoder) (s : Int) (hf : e.finished = true) :
    (e.read s).1 = (e.buffer.read s).1 ∧
    (e.read s).2 = { e with buffer := (e.buffer.read s).2 } ∧
    (e.read s).2.bodyLength = e.bodyLength ∧
    (e.buffer.len = 0 →
      (e.read s).1 = [] ∧ (e.read s).2.buffer.len = 0 ∧
        (e.read s).2.finished = true) := by
  have hread : e.read s =
      ((e.buffer.read s).1, { e with buffer := (e.buffer.read s).2 }) := by
    simp [Encoder.read, hf]
  refine ⟨by rw [hread], by rw [hread], by rw [hread]; rfl, ?_⟩
  intro h0
  have hu : e.buffer.unread = [] := by
    have h1 := CBuf.len_eq_unread_length e.buffer
    rw [h0] at h1
    exact List.length_eq_zero.mp h1.symm
  refine ⟨?_, ?_, by rw [hread]; exact hf⟩
  · rw [hread]
    show (e.buffer.read s).1 = []
    rw [CBuf.read_fst]
    split <;> simp [hu]
  · rw [hread]
    show ((e.buffer.read s).2).len = 0
    rw [CBuf.len_eq_unread_length, CBuf.read_snd_unread]
    split <;> simp [hu]

/-- Witness for claim C5 at a fully drained one-field encoder. -/
theorem claim_C5_wit :
    wEncDone.finished = true ∧
    ((wEncDone.read 5).1 = (wEncDone.buffer.read 5).1 ∧
     (wEncDone.read 5).2 =
       { wEncDone with buffer := (wEncDone.buffer.read 5).2 } ∧
     (wEncDone.read 5).2.bodyLength = wEncDone.bodyLength ∧
     (wEncDone.buffer.len = 0 →
       (wEncDone.read 5).1 = [] ∧ (wEncDone.read 5).2.buffer.len = 0 ∧
         (wEncDone.read 5).2.finished = true)) :=
  ⟨by decide, claim_C5 wEncDone 5 (by decide)⟩

/-- Claim C6: the fully drained output is produced in exactly one order —
leading boundary line, then for each field in the given order its header
block, its body, a CRLF and the next boundary line, with the final
boundary line sealed into the closing delimiter. -/
theorem claim_C6 (flds : List (List Nat × List Nat)) (bv : List Nat)
    (sz : Int) :
    ((mkEncoderIter flds bv sz).read (-1)).1 = expectedStream flds bv :=
  read_unbounded_eq_expected flds bv sz

/-- Claim C7: `Part.write_to` first appends the whole header block exactly
once (never split, regardless of the budget) and marks headers sent, then
appends body bytes until the body is exhausted or the budget is met; the
returned count is the header length plus the body bytes consumed, and
already-sent headers are never re-read. -/
theorem claim_C7 (p : Part) (buf : CBuf) (size : Int) :
    (p.writeTo buf size).2.1.data =
      buf.data ++ ((if p.headers_unread then p.headers else []) ++
        p.body.take (p.bodyTakeCount size)) ∧
    (p.writeTo buf size).1.headers_unread = false ∧
    (p.writeTo buf size).1.headers = p.headers ∧
    (p.writeTo buf size).1.body = p.body.drop (p.bodyTakeCount size) ∧
    (p.writeTo buf size).2.2 =
      (if p.headers_unread then p.headers else []).length +
        p.bodyTakeCount size := by
  rw [Part.writeTo_spec]
  exact ⟨rfl, rfl, rfl, rfl, rfl⟩

/-- Claim C8 (amended): the computed total length is the sum of the parts'
fixed lengths plus `(len(boundary_value) + 6) × (N + 1)` — the overhead per
boundary is `len(self._boundary) + 4`, i.e. the delimiter line
`--boundary\r\n` plus the CRLF written before each delimiter, not the bare
delimiter line length the spec states — and with that overhead the formula
matches the drained stream exactly. -/
theorem claim_C8 (flds : List (List Nat × List Nat)) (bv : List Nat)
    (sz : Int) :
    (mkEncoderIter flds bv sz).calculateLength =
      (flds.map (fun f => f.1.length + f.2.length)).sum +
        (bv.length + 6) * (flds.length + 1) ∧
    (mkEncoderIter flds bv sz).calculateLength =
      (expectedStream flds bv).length := by
  refine ⟨calculateLength_mk flds bv sz, ?_⟩
  rw [calculateLength_mk, expectedStream_length]

/-- Counterexample to claim C8 as stated: with one field (`hd`/`b`) and
boundary `X` the spec's formula gives 13 while the code computes 17, which
is the true stream length. -/
theorem claim_C8_cex :
    (mkEncoder wflds [88]).calculateLength ≠ specTotalLengthC8 wflds [88] ∧
    specTotalLengthC8 wflds [88] ≠ (expectedStream wflds [88]).length ∧
    (mkEncoder wflds [88]).calculateLength =
      (expectedStream wflds [88]).length := by
  decide

/-- Claim C9: a body source exposing none of the four size accessors makes
`Part` construction fail with the size-unavailable `ValueError` (so no
encoder is produced past that point), and a source exposing any accessor
never raises that error. -/
theorem claim_C9 (headers : List Nat) (body : PySized) :
    (body.hasSizeAccessor = false →
      Part.initChecked headers body = Except.error PyErr.valueError) ∧
    (body.hasSizeAccessor = true →
      ∃ n, total_len body = Except.ok n ∧
        Part.initChecked headers body =
          Except.ok { headers := headers, len := headers.length + n }) := by
  obtain ⟨d, l, f, g⟩ := body
  cases d <;> cases l <;> cases f <;> cases g <;>
    simp [PySized.hasSizeAccessor, total_len, Part.initChecked]

/-- Claim C10 (amended: at least one field): in every reachable state of an
encoder holding at least one part, every closing-boundary write so far ran
with at least two buffered bytes ending in CRLF (the ghost `closingOK`
flag), and the sealed stream ends in `--boundary--\r\n`. -/
theorem claim_C10 (e : Encoder) (hr : Reachable e) (hne : e.parts ≠ []) :
    e.closingOK = true ∧
    ∃ bv t, e.boundary = [45, 45] ++ bv ∧
      e.fullOut = t ++ ([45, 45] ++ (bv ++ closingDashes)) := by
  obtain ⟨k, hI⟩ := reachable_inv e hr hne
  obtain ⟨⟨bv, hB, hEB⟩, hok, -, -, -⟩ := hI.1
  obtain ⟨t, ht⟩ := fullOut_ends_closing e bv hEB
  exact ⟨hok, bv, t, hB, ht⟩

/-- Witness for claim C10 at a fully drained one-field encoder. -/
theorem claim_C10_wit :
    Reachable wEncDone ∧ wEncDone.parts ≠ [] ∧
      (wEncDone.closingOK = true ∧
        ∃ bv t, wEncDone.boundary = [45, 45] ++ bv ∧
          wEncDone.fullOut = t ++ ([45, 45] ++ (bv ++ closingDashes))) :=
  ⟨Reachable.step _ _ (Reachable.init wflds [88] 32768), by decide,
   claim_C10 wEncDone (Reachable.step _ _ (Reachable.init wflds [88] 32768))
     (by decide)⟩

/-- Counterexample to claim C10 as stated: with zero fields, two chunked
reads reach a state whose closing-boundary write ran on a one-byte buffer
not ending in CRLF (the ghost flag records the violation; CPython's seek
would raise there, and the model's clamped overwrite corrupts the tail). -/
theorem claim_C10_cex :
    Reachable (((mkEncoder [] [88]).read 4).2.read 4).2 ∧
    ((((mkEncoder [] [88]).read 4).2.read 4).2).finished = true ∧
    ((((mkEncoder [] [88]).read 4).2.read 4).2).closingOK = false :=
  ⟨Reachable.step _ _ (Reachable.step _ _ (Reachable.init [] [88] 32768)),
   by decide, by decide⟩

end MultipartEnc
